import Mathlib

/-!
Verification of the pijul core against its specification.

This file gives a shallow embedding of the parts of `libpijul` that the
claims concern: the channel bookkeeping tables (`put_changes`,
`del_changes` from `pristine/sanakirja.rs`), vertex splitting
(`split_block`), the apply pipeline's two write passes and early exits
(`apply.rs`), zombie repair (`repair_zombies`), the missing-context
checks (`missing_context.rs`) and the conflict writer
(`vertex_buffer.rs`).

Code of the repository that is not part of the sources at hand (the
change model `change.rs`, the pristine helpers `pristine/mod.rs` with
`EdgeFlags`, `put_graph_with_rev`, `is_alive`, `iter_adjacent`, and
the Merkle implementation) is modelled from the specification; each
such definition carries a doc comment saying so.  `find_block` and
`find_block_end` are translated from `pristine/sanakirja.rs`.
-/

/-- Modelled from the spec: a change hash is a tagged union whose first
byte is an algorithm tag, `0 = None` (the sentinel), else the
algorithm.  We model the sentinel plus one perfect hash algorithm. -/
inductive Hash where
  | none : Hash
  | blake3 (v : Nat) : Hash
deriving DecidableEq

/-- Change identifiers: a dense 8-byte integer allocated per repository
(`ChangeId` in the source); `ROOT` is the reserved identifier used for
pseudo-edges synthesised by repair. -/
abbrev ChangeId := Nat

def ChangeId.ROOT : ChangeId := 0

def ChangeId.is_root (c : ChangeId) : Bool := c = ChangeId.ROOT

/-- Modelled from the spec: the per-channel rolling hash of the
sequence of applied change hashes.  The spec only requires the rolling
operation `m · h` to be collision-free, so we take the free model: a
`Merkle` is the reversed word of hashes folded into it. -/
abbrev Merkle := List Hash

/-- Modelled from the spec: the Merkle of the empty prefix. -/
def Merkle.zero : Merkle := []

/-- Modelled from the spec: extending a rolling Merkle with one hash. -/
def Merkle.next (m : Merkle) (h : Hash) : Merkle := h :: m

theorem Merkle.length_next (m : Merkle) (h : Hash) :
    (m.next h).length = m.length + 1 := rfl

/-- Edge flags (`EdgeFlags` in `pristine/mod.rs`, absent from the
sources). Modelled from the spec: a bitset over
{BLOCK, FOLDER, PARENT, DELETED, PSEUDO}, stored in one byte; the bit
values are those of the on-disk format. -/
abbrev EdgeFlags := Nat

namespace EdgeFlags

def BLOCK : EdgeFlags := 1
def PSEUDO : EdgeFlags := 4
def FOLDER : EdgeFlags := 16
def PARENT : EdgeFlags := 32
def DELETED : EdgeFlags := 128

/-- The union of all defined flag bits (`EdgeFlags::all()`). -/
def all : EdgeFlags := BLOCK + PSEUDO + FOLDER + PARENT + DELETED

def empty : EdgeFlags := 0

/-- Bitset containment test (`flag.contains(x)`). -/
def hasFlag (f x : EdgeFlags) : Bool := f &&& x == x

/-- Bit removal (`flag - x` on bitflags). -/
def without (f x : EdgeFlags) : EdgeFlags := f - (f &&& x)

def is_parent (f : EdgeFlags) : Bool := hasFlag f PARENT

def is_folder (f : EdgeFlags) : Bool := hasFlag f FOLDER

def is_deleted (f : EdgeFlags) : Bool := hasFlag f DELETED

end EdgeFlags

/-- A position: `(change, pos)` addressing a byte inside a vertex. -/
structure Position where
  change : ChangeId
  pos : Nat
deriving DecidableEq

/-- A vertex: a contiguous byte range `[start, end)` introduced by a
single change (`Vertex<ChangeId>` in the source). -/
structure Vertex where
  change : ChangeId
  start : Nat
  end_ : Nat
deriving DecidableEq

def Vertex.is_empty (v : Vertex) : Bool := v.start == v.end_

def Vertex.is_root (v : Vertex) : Bool :=
  v.change == ChangeId.ROOT && v.start == 0 && v.end_ == 0

/-- The reserved root vertex (`Vertex::ROOT`). -/
def Vertex.ROOT : Vertex := ⟨ChangeId.ROOT, 0, 0⟩

def Vertex.start_pos (v : Vertex) : Position := ⟨v.change, v.start⟩

def Vertex.end_pos (v : Vertex) : Position := ⟨v.change, v.end_⟩

/-- Modelled from the spec: the marker vertex `pos.inode_vertex()`,
an empty vertex at the given position. -/
def Position.inode_vertex (p : Position) : Vertex := ⟨p.change, p.pos, p.pos⟩

/-- A serialized edge: flag, destination position and the change that
introduced it (`SerializedEdge`). -/
structure Edge where
  flag : EdgeFlags
  dest : Position
  introduced_by : ChangeId
deriving DecidableEq

/-- The channel graph table: a set of `vertex → edge` bindings, listed
in the b-tree's ascending key order. -/
abbrev Graph := List (Vertex × Edge)

/-- Ascending serialized order on bindings (vertex key first, then the
serialized edge), mirroring the b-tree's byte order. -/
def bindingLe (a b : Vertex × Edge) : Bool :=
  let ka := [a.1.change, a.1.start, a.1.end_,
             a.2.flag, a.2.dest.change, a.2.dest.pos, a.2.introduced_by]
  let kb := [b.1.change, b.1.start, b.1.end_,
             b.2.flag, b.2.dest.change, b.2.dest.pos, b.2.introduced_by]
  decide (ka ≤ kb)

/-- Sorted insertion of a binding, mirroring `btree::put`. -/
def Graph.ins (x : Vertex × Edge) : Graph → Graph
  | [] => [x]
  | y :: l => if bindingLe x y then x :: y :: l else y :: Graph.ins x l

/-- Insert a binding if absent (`btree::put` returns `false` on a
binding already present). -/
def Graph.put (g : Graph) (k : Vertex) (e : Edge) : Graph :=
  if (k, e) ∈ g then g else Graph.ins (k, e) g

/-- Delete a binding (`btree::del` with an explicit value). -/
def Graph.del (g : Graph) (k : Vertex) (e : Edge) : Graph :=
  g.filter (fun b => b ≠ (k, e))

/-- All edges out of a vertex, in storage order. -/
def Graph.edgesOf (g : Graph) (v : Vertex) : List Edge :=
  (g.filter (fun b => b.1 = v)).map (·.2)

theorem Graph.mem_ins {x y : Vertex × Edge} {g : Graph} :
    y ∈ Graph.ins x g ↔ y = x ∨ y ∈ g := by
  induction g with
  | nil => simp [Graph.ins]
  | cons a l ih =>
      simp only [Graph.ins]
      split
      · simp
      · simp only [List.mem_cons, ih]
        tauto

theorem Graph.mem_put {g : Graph} {k : Vertex} {e : Edge} {y : Vertex × Edge} :
    y ∈ Graph.put g k e ↔ y = (k, e) ∨ y ∈ g := by
  unfold Graph.put
  split
  · rename_i hmem
    constructor
    · exact fun h => Or.inr h
    · rintro (rfl | h)
      · exact hmem
      · exact h
  · exact Graph.mem_ins

theorem Graph.mem_del {g : Graph} {k : Vertex} {e : Edge} {y : Vertex × Edge} :
    y ∈ Graph.del g k e ↔ y ∈ g ∧ y ≠ (k, e) := by
  simp [Graph.del]

/-- Modelled from the spec: edges are stored both ways; for every
forward edge with flag `f` a matching edge with flag `f | PARENT` is
stored on the destination vertex (`put_graph_with_rev` in
`pristine/mod.rs`). -/
def put_graph_with_rev (g : Graph) (flag : EdgeFlags) (a b : Vertex)
    (introduced_by : ChangeId) : Graph :=
  let g1 := Graph.put g a ⟨flag, b.start_pos, introduced_by⟩
  Graph.put g1 b ⟨flag ||| EdgeFlags.PARENT, a.end_pos, introduced_by⟩

/-- Modelled from the spec: removal of a paired edge
(`del_graph_with_rev`). -/
def del_graph_with_rev (g : Graph) (flag : EdgeFlags) (a b : Vertex)
    (introduced_by : ChangeId) : Graph :=
  let g1 := Graph.del g a ⟨flag, b.start_pos, introduced_by⟩
  Graph.del g1 b ⟨flag ||| EdgeFlags.PARENT, a.end_pos, introduced_by⟩

/-- The b-tree key order on vertices (`change`, then `start`, then
`end`), used by `cursor.set`. -/
def vertexLe (a b : Vertex) : Bool :=
  decide ([a.change, a.start, a.end_] ≤ [b.change, b.start, b.end_])

/-- The initial cursor position shared by `find_block` and
`find_block_end` (`pristine/sanakirja.rs`): `cursor.set` to the first
binding whose key is `≥ ⟨p.change, p.pos, p.pos⟩`; when there is none,
`cursor.prev()` to the last binding; on an empty graph, fail. -/
def fb_start (ks : List Vertex) (p : Position) : Option Nat :=
  match ks.findIdx? (fun k => vertexLe ⟨p.change, p.pos, p.pos⟩ k) with
  | some i => some i
  | Option.none => if ks.isEmpty then Option.none else some (ks.length - 1)

/-- The rewind condition of `find_block`: the cursor key is strictly
past the position in (`change`, `start`) order. -/
def fb_past (p : Position) (k : Vertex) : Bool :=
  p.change < k.change || (k.change == p.change && p.pos < k.start)

/-- The rewind loop of `find_block`: `cursor.prev()` while the key is
strictly past the position, stopping at the first binding. -/
def fb_rewind (p : Position) (ks : List Vertex) : Nat → Nat
  | 0 => 0
  | i + 1 =>
    if fb_past p (ks.getD (i + 1) Vertex.ROOT) then fb_rewind p ks i else i + 1

/-- The forward loop of `find_block`: return the first key of the same
change containing the position (interior byte, or an empty marker at
the position); a key of a later change means the block is absent.  A
key of the same change that starts at most at the position but does not
contain it, or that starts after it, is stepped over. -/
def fb_forward (p : Position) : List Vertex → Option Vertex
  | [] => Option.none
  | k :: rest =>
    if k.change == p.change && k.start ≤ p.pos then
      if p.pos < k.end_ || (k.start == k.end_ && k.end_ == p.pos) then some k
      else fb_forward p rest
    else if p.change < k.change then Option.none
    else fb_forward p rest

/-- The translation of `find_block` (`pristine/sanakirja.rs`): resolve
a position to the graph vertex containing it.  The root change
short-circuits to `Vertex.ROOT`; otherwise the cursor is set to the
first binding `≥ ⟨p.change, p.pos, p.pos⟩` (or the last binding),
rewound while its key is strictly past the position, then scanned
forward for a containing key.  `none` is the source's
`BlockError::Block`. -/
def find_block (g : Graph) (p : Position) : Option Vertex :=
  if ChangeId.is_root p.change then some Vertex.ROOT
  else
    let ks := g.map (·.1)
    match fb_start ks p with
    | Option.none => Option.none
    | some i => fb_forward p (ks.drop (fb_rewind p ks i))

/-- The backward loop of `find_block_end`: `cursor.prev()` in search of
the empty marker at the position (`Sum.inl`), stopping (`Sum.inr` with
the stop index) once the key's change is earlier or its start is before
the position, or at the first binding. -/
def fbe_back (p : Position) (ks : List Vertex) : Nat → Vertex ⊕ Nat
  | 0 =>
    let k := ks.getD 0 Vertex.ROOT
    if k.change == p.change && k.start == p.pos && k.end_ == p.pos then Sum.inl k
    else Sum.inr 0
  | i + 1 =>
    let k := ks.getD (i + 1) Vertex.ROOT
    if k.change < p.change then Sum.inr (i + 1)
    else if k.change == p.change && k.start == p.pos && k.end_ == p.pos then
      Sum.inl k
    else if k.change == p.change && k.start < p.pos then Sum.inr (i + 1)
    else fbe_back p ks i

/-- The forward loop of `find_block_end`: `cursor.next()` while the key
ends strictly before the position or belongs to an earlier change. -/
def fbe_forward (p : Position) (ks : List Vertex) : Nat → Nat → Nat
  | 0, i => i
  | fuel + 1, i =>
    let k := ks.getD i Vertex.ROOT
    if (k.change < p.change || (k.change == p.change && k.end_ < p.pos)) &&
        i + 1 < ks.length then
      fbe_forward p ks fuel (i + 1)
    else i

/-- The translation of `find_block_end` (`pristine/sanakirja.rs`):
resolve a position to the vertex it ends in, preferring the empty
marker exactly at the position.  The root change short-circuits to
`Vertex.ROOT`; otherwise the cursor is set as in `find_block`, stepped
back in search of the marker, then forward until the key reaches the
position; the final key must contain the position from the left
(`start < pos ≤ end`, or the empty marker).  `none` is the source's
`BlockError::Block`. -/
def find_block_end (g : Graph) (p : Position) : Option Vertex :=
  if ChangeId.is_root p.change then some Vertex.ROOT
  else
    let ks := g.map (·.1)
    match fb_start ks p with
    | Option.none => Option.none
    | some i =>
      match fbe_back p ks i with
      | Sum.inl k => some k
      | Sum.inr j =>
        let k := ks.getD (fbe_forward p ks ks.length j) Vertex.ROOT
        if k.change == p.change &&
            ((k.start < p.pos && p.pos ≤ k.end_) ||
              (k.start == k.end_ && k.start == p.pos)) then some k
        else Option.none

/-- Modelled from the spec: `iter_adjacent` iterates the edges of a
vertex whose flag byte lies between the two bounds (the b-tree cursor
is set to the first edge `≥ min` and iteration stops past `max`). -/
def iter_adjacent (g : Graph) (v : Vertex) (minFlag maxFlag : EdgeFlags) :
    List Edge :=
  (Graph.edgesOf g v).filter (fun e => minFlag ≤ e.flag && e.flag ≤ maxFlag)

/-- Modelled from the spec (invariant 3): a vertex is alive iff it is
the root, or it has an incoming `PARENT` edge with no `DELETED` bit
which either carries `BLOCK` or points at a marker vertex
(`is_alive` in `pristine/mod.rs`). -/
def is_alive (g : Graph) (v : Vertex) : Bool :=
  v.is_root ||
    (iter_adjacent g v EdgeFlags.PARENT EdgeFlags.all).any (fun e =>
      EdgeFlags.hasFlag e.flag EdgeFlags.PARENT &&
        !EdgeFlags.hasFlag e.flag EdgeFlags.DELETED &&
        (EdgeFlags.hasFlag e.flag EdgeFlags.BLOCK || v.is_empty))

/-- A channel: the graph plus bookkeeping tables.  `changes` and
`states` are single-binding maps and are modelled extensionally;
`revchanges` is kept in the b-tree's ascending timestamp order. -/
structure Channel where
  graph : Graph
  changes : ChangeId → Option Nat
  revchanges : List (Nat × ChangeId × Merkle)
  states : Merkle → Option Nat
  tags : List Nat
  apply_counter : Nat

/-- The empty channel. -/
def Channel.empty : Channel :=
  { graph := []
    changes := fun _ => Option.none
    revchanges := []
    states := fun _ => Option.none
    tags := []
    apply_counter := 0 }

/-- Sorted insertion into `revchanges`, mirroring `btree::put` on the
timestamp key. -/
def rcInsert (x : Nat × ChangeId × Merkle) :
    List (Nat × ChangeId × Merkle) → List (Nat × ChangeId × Merkle)
  | [] => [x]
  | y :: l => if x.1 ≤ y.1 then x :: y :: l else y :: rcInsert x l

/-- Deletion by timestamp key, mirroring `btree::del` with no value. -/
def rcDel (t : Nat) (l : List (Nat × ChangeId × Merkle)) :
    List (Nat × ChangeId × Merkle) :=
  l.filter (fun e => e.1 ≠ t)

/-- One entry of `revchanges`: timestamp, change id, rolling Merkle. -/
abbrev RcEntry := Nat × ChangeId × Merkle

/-- The rolling Merkle at the end of a `revchanges` segment (the
segment's last entry, or the given seed when it is empty). -/
def lastM (m0 : Merkle) (l : List RcEntry) : Merkle :=
  (l.getLast?).elim m0 (fun e => e.2.2)

/-- The translation of `put_changes` (`pristine/sanakirja.rs`): if the
change is already in the channel's changeset, return `none` and leave
the channel untouched; otherwise bump the counter, extend the last
rolling Merkle with the hash, record the change in `changes`,
`revchanges` and `states`, and return the new Merkle.
The source's assertions (that `t` is larger than every recorded
timestamp and unassigned) hold on every call site, and are hypotheses
of the theorems below. -/
def put_changes (ch : Channel) (p : ChangeId) (t : Nat) (h : Hash) :
    Option Merkle × Channel :=
  match ch.changes p with
  | some _ => (Option.none, ch)
  | Option.none =>
    let m0 := lastM Merkle.zero ch.revchanges
    let m := m0.next h
    (some m,
      { ch with
        apply_counter := ch.apply_counter + 1
        changes := fun q => if q = p then some t else ch.changes q
        revchanges := rcInsert (t, p, m) ch.revchanges
        states := fun m2 => if m2 = m then some t else ch.states m2 })

/-- The translation of `del_changes` (`pristine/sanakirja.rs`): collect
every `revchanges` entry at a timestamp `≥ t` (`repl`), take the
rolling Merkle of the last remaining earlier entry (or zero), then for
each collected entry delete it from `revchanges` and `states`; entries
strictly after `t` are re-inserted with their Merkle re-derived from
the still-present subsequence.  Finally the tag at `t` and the
`changes` binding `p → t` are removed.  `ext` is the repository's
`external` table (the source unwraps it, so it is total here). -/
def del_step (ext : ChangeId → Hash) (t : Nat)
    (acc : List (Nat × ChangeId × Merkle) × (Merkle → Option Nat) × Merkle)
    (ent : Nat × ChangeId × Merkle) :
    List (Nat × ChangeId × Merkle) × (Merkle → Option Nat) × Merkle :=
  let rc1 := rcDel ent.1 acc.1
  let st1 := fun m2 => if m2 = ent.2.2 then Option.none else acc.2.1 m2
  if t < ent.1 then
    let m1 := acc.2.2.next (ext ent.2.1)
    (rcInsert (ent.1, ent.2.1, m1) rc1,
     fun m2 => if m2 = m1 then some ent.1 else st1 m2,
     m1)
  else (rc1, st1, acc.2.2)

def del_changes (ext : ChangeId → Hash) (ch : Channel) (p : ChangeId) (t : Nat) :
    Channel :=
  let repl := ch.revchanges.filter (fun e => t ≤ e.1)
  let m0 := lastM Merkle.zero (ch.revchanges.filter (fun e => e.1 < t))
  let res := repl.foldl (del_step ext t) (ch.revchanges, ch.states, m0)
  { ch with
    revchanges := res.1
    states := res.2.1
    tags := ch.tags.erase t
    changes := fun q =>
      if q = p then (if ch.changes p = some t then Option.none else ch.changes q)
      else ch.changes q }

/-- Modelled from the spec: a position inside a change, referenced by
hash (`Position<Option<Hash>>`); `none` refers to the change being
applied. -/
structure HPosition where
  change : Option Hash
  pos : Nat
deriving DecidableEq

/-- Modelled from the spec: a vertex referenced by hash
(`Vertex<Option<Hash>>`), as used in `EdgeMap` atoms. -/
structure HVertex where
  change : Option Hash
  start : Nat
  end_ : Nat
deriving DecidableEq

def HVertex.start_pos (v : HVertex) : HPosition := ⟨v.change, v.start⟩

def HVertex.is_empty (v : HVertex) : Bool := v.start == v.end_

/-- Modelled from the spec: one edge mutation of an `EdgeMap` atom. -/
structure NewEdge where
  flag : EdgeFlags
  efrom : HPosition
  eto : HVertex
deriving DecidableEq

/-- Modelled from the spec: a `NewVertex` atom — a byte range with
up/down context and a flag. -/
structure NewVertex where
  up_context : List HPosition
  down_context : List HPosition
  start : Nat
  end_ : Nat
  flag : EdgeFlags
  inode : HPosition
deriving DecidableEq

/-- Modelled from the spec: an `EdgeMap` atom. -/
structure EdgeMap where
  edges : List NewEdge
  inode : HPosition
deriving DecidableEq

/-- Modelled from the spec: an atom of a change. -/
inductive Atom where
  | newVertex (n : NewVertex)
  | edgeMap (n : EdgeMap)
deriving DecidableEq

/-- Modelled from the spec: a change — declared dependencies and
ordered hunks of atoms (`change.changes`, each hunk iterated in atom
order). -/
structure Change where
  dependencies : List Hash
  changes : List (List Atom)

/-- The repository-wide transaction tables the apply engine touches:
the `internal`/`external` mutual maps and the id allocator.  Modelled
from the spec (the table schema is not among the sources). -/
structure Txn where
  internal : Hash → Option ChangeId
  external : ChangeId → Option Hash
  next_id : Nat

/-- Modelled from the spec: allocate a fresh dense internal id. -/
def make_changeid (txn : Txn) (_h : Hash) : ChangeId := txn.next_id

/-- Modelled from the spec: record a freshly allocated id in the
`internal`/`external` maps (the dep/touched-files bookkeeping is not
needed by any claim). -/
def register_change (txn : Txn) (i : ChangeId) (h : Hash) : Txn :=
  { txn with
    internal := fun h2 => if h2 = h then some i else txn.internal h2
    external := fun j => if j = i then some h else txn.external j
    next_id := txn.next_id + 1 }

/-- Errors of the graph write phases (`Block`, `InvalidChange`,
`Corruption` in `LocalApplyError`); the two channel-level errors are
kept apart so that the claims about them can be stated exactly. -/
inductive PhaseError where
  | block (block : Position)
  | invalidChange
  | corruption
deriving DecidableEq

/-- The error type of `apply_change` (`LocalApplyError` in
`apply.rs`). -/
inductive ApplyError where
  | dependencyMissing (hash : Hash)
  | changeAlreadyOnChannel (hash : Hash)
  | block (block : Position)
  | invalidChange
  | corruption
deriving DecidableEq

def PhaseError.toApplyError : PhaseError → ApplyError
  | PhaseError.block b => ApplyError.block b
  | PhaseError.invalidChange => ApplyError.invalidChange
  | PhaseError.corruption => ApplyError.corruption

/-- The translation of `apply_change_to_channel` (`apply.rs`): read the
timestamp, call `put_changes` (failing with `ChangeAlreadyOnChannel`
when it returns `None`), then run the write passes and the repair
pipeline.  The write passes and repairs mutate only the graph table and
never construct the two channel-level errors, so they are abstracted as
a `phases` function on the graph (their per-pass order is the subject
of `apply_write_ops` below). -/
def apply_change_to_channel (phases : Graph → Except PhaseError Graph)
    (ch : Channel) (change_id : ChangeId) (hash : Hash) :
    Except ApplyError (Nat × Merkle) × Channel :=
  let n := ch.apply_counter
  match put_changes ch change_id ch.apply_counter hash with
  | (Option.none, _) => (Except.error (ApplyError.changeAlreadyOnChannel hash), ch)
  | (some m, ch1) =>
    match phases ch1.graph with
    | Except.error e => (Except.error e.toApplyError, ch1)
    | Except.ok g => (Except.ok (n, m), { ch1 with graph := g })

/-- Is the dependency hash missing from the channel?  Mirrors the check
of the dependency loop of `apply_change_ws`: present means it has an
internal id and a changeset entry on this channel. -/
def dep_missing (txn : Txn) (ch : Channel) (h : Hash) : Bool :=
  match txn.internal h with
  | some i => !(ch.changes i).isSome
  | Option.none => true

/-- The first dependency (other than the sentinel) that is missing from
the channel, in declaration order. -/
def first_missing_dep (txn : Txn) (ch : Channel) (deps : List Hash) : Option Hash :=
  deps.find? (fun h => !(h == Hash.none) && dep_missing txn ch h)

/-- The translation of `apply_change_ws` (`apply.rs`): check every
declared dependency (skipping the sentinel `Hash::None`), failing with
`DependencyMissing` on the first absent one; then resolve or allocate
the internal id and call `apply_change_to_channel`. -/
def apply_change_ws (getChange : Hash → Change)
    (phases : Graph → Except PhaseError Graph)
    (txn : Txn) (ch : Channel) (hash : Hash) :
    Except ApplyError (Nat × Merkle) × Txn × Channel :=
  let change := getChange hash
  match first_missing_dep txn ch change.dependencies with
  | some h => (Except.error (ApplyError.dependencyMissing h), txn, ch)
  | Option.none =>
    let alloc : ChangeId × Txn := match txn.internal hash with
      | some p => (p, txn)
      | Option.none =>
        let i := make_changeid txn hash
        (i, register_change txn i hash)
    let res := apply_change_to_channel phases ch alloc.1 hash
    (res.1, alloc.2, res.2)

/-- One primitive graph write of the apply loops: either a new vertex
(`put_newvertex`) or one `EdgeMap` edge (`put_newedge`). -/
inductive ApplyOp where
  | newVertex (n : NewVertex)
  | newEdge (inode : HPosition) (e : NewEdge)
deriving DecidableEq

/-- The writes the first loop of `apply_change_to_channel` performs for
one atom: a `NewVertex` is written, and every `EdgeMap` edge whose flag
does not contain `DELETED`, in atom order. -/
def pass_one_atom : Atom → List ApplyOp
  | Atom.newVertex n => [ApplyOp.newVertex n]
  | Atom.edgeMap n =>
    n.edges.filterMap (fun e =>
      if EdgeFlags.hasFlag e.flag EdgeFlags.DELETED then Option.none
      else some (ApplyOp.newEdge n.inode e))

/-- The writes the second loop performs for one atom: every `EdgeMap`
edge whose flag contains `DELETED`. -/
def pass_two_atom : Atom → List ApplyOp
  | Atom.newVertex _ => []
  | Atom.edgeMap n =>
    n.edges.filterMap (fun e =>
      if EdgeFlags.hasFlag e.flag EdgeFlags.DELETED then some (ApplyOp.newEdge n.inode e)
      else Option.none)

/-- The sequence of graph writes of the two write loops of
`apply_change_to_channel`, in execution order: the first loop over all
hunks and atoms, then the second. -/
def apply_write_ops (c : Change) : List ApplyOp :=
  (c.changes.flatMap fun hunk => hunk.flatMap pass_one_atom) ++
    (c.changes.flatMap fun hunk => hunk.flatMap pass_two_atom)

/-- Does an op insert a `DELETED` edge? -/
def ApplyOp.isDeletion : ApplyOp → Bool
  | ApplyOp.newVertex _ => false
  | ApplyOp.newEdge _ e => EdgeFlags.hasFlag e.flag EdgeFlags.DELETED

/-- The translation of `split_block` (`pristine/sanakirja.rs`): collect
every edge bound to `key`, then for each such edge insert a connecting
edge between the two halves when its flag contains `PARENT | BLOCK`,
delete the binding on `key`, and re-bind the edge to the first half
`[start, pos)` when its flag contains `PARENT` and to the second half
`[pos, end)` otherwise.  The source asserts `key.start < pos < key.end`
and that no non-`PSEUDO` edge is introduced by `ROOT`; these are
hypotheses of the theorem. -/
def first_half (key : Vertex) (pos : Nat) : Vertex := ⟨key.change, key.start, pos⟩

def second_half (key : Vertex) (pos : Nat) : Vertex := ⟨key.change, pos, key.end_⟩

def split_block_step (key : Vertex) (pos : Nat) (g1 : Graph) (chi : Edge) : Graph :=
  let g2 :=
    if EdgeFlags.hasFlag chi.flag (EdgeFlags.PARENT ||| EdgeFlags.BLOCK) then
      put_graph_with_rev g1 (EdgeFlags.without chi.flag EdgeFlags.PARENT)
        (first_half key pos) (second_half key pos) chi.introduced_by
    else g1
  let g3 := Graph.del g2 key chi
  Graph.put g3
    (if EdgeFlags.hasFlag chi.flag EdgeFlags.PARENT then first_half key pos
     else second_half key pos)
    chi

def split_block (g : Graph) (key : Vertex) (pos : Nat) : Graph :=
  (Graph.edgesOf g key).foldl (split_block_step key pos) g

/-- The error type of the missing-context checks (`MissingError`):
block resolution failure or an inconsistent change. -/
inductive MissingError where
  | block (block : Position)
  | inconsistent
deriving DecidableEq

/-- Modelled from the spec: `internal_pos` resolves a hash-addressed
position to an internal one; a `none` change hash refers to the change
being applied, and an unknown hash is an undeclared dependency. -/
def internal_pos (txn : Txn) (p : HPosition) (change_id : ChangeId) :
    Except MissingError Position :=
  match p.change with
  | some h =>
    match txn.internal h with
    | some i => Except.ok ⟨i, p.pos⟩
    | Option.none => Except.error MissingError.inconsistent
  | Option.none => Except.ok ⟨change_id, p.pos⟩

/-- Modelled from the spec: `iter_alive_children` lists the non-deleted
non-parent (child) edges of a vertex. -/
def iter_alive_children (g : Graph) (v : Vertex) : List Edge :=
  iter_adjacent g v EdgeFlags.empty
    (EdgeFlags.BLOCK ||| EdgeFlags.PSEUDO ||| EdgeFlags.FOLDER)

/-- The translation of `has_unknown_children` (`missing_context.rs`):
some alive child of `dest_vertex` was introduced by a change that is
neither the one being applied, nor `ROOT`, that did not itself delete
`dest_vertex`, and that the applied change does not know.  (The source
unwraps the `external` lookup; a missing entry is unreachable there and
counts as unknown here.) -/
def has_unknown_children (txn : Txn) (g : Graph) (dest_vertex : Vertex)
    (change_id : ChangeId) (known : Hash → Bool) : Bool :=
  (iter_alive_children g dest_vertex).any (fun v =>
    if v.introduced_by == change_id || ChangeId.is_root v.dest.change then false
    else if ChangeId.is_root v.introduced_by then false
    else
      let not_del_by_change :=
        !(iter_adjacent g dest_vertex (EdgeFlags.PARENT ||| EdgeFlags.DELETED)
            EdgeFlags.all).any (fun e2 => e2.introduced_by == v.introduced_by)
      if not_del_by_change then
        match txn.external v.introduced_by with
        | some intro => !known intro
        | Option.none => true
      else false)

/-- The loop of `has_missing_context_deleted`: walk the blocks covering
`[pos, toEnd)`, looking for unknown children.  The source's `while`
loop advances `pos` to the end of each found block; it is translated
with fuel (block ends strictly advance in a well-formed graph). -/
def hmcd_loop (txn : Txn) (g : Graph) (change_id : ChangeId) (known : Hash → Bool)
    (toEnd : Nat) : Nat → Position → Bool
  | 0, _ => false
  | fuel + 1, pos =>
    match find_block g pos with
    | Option.none => false
    | some dest_vertex =>
      if has_unknown_children txn g dest_vertex change_id known then true
      else if dest_vertex.end_ < toEnd then
        hmcd_loop txn g change_id known toEnd fuel ⟨pos.change, dest_vertex.end_⟩
      else false

/-- The translation of `has_missing_context_deleted`
(`missing_context.rs`): `FOLDER` edges short-circuit to `false`;
otherwise the blocks covering the deleted range are scanned for
children introduced by changes unknown to the applied change. -/
def has_missing_context_deleted (fuel : Nat) (txn : Txn) (g : Graph)
    (change_id : ChangeId) (known : Hash → Bool) (e : NewEdge) :
    Except MissingError Bool :=
  if EdgeFlags.hasFlag e.flag EdgeFlags.FOLDER then Except.ok false
  else do
    let pos ← internal_pos txn e.eto.start_pos change_id
    Except.ok (hmcd_loop txn g change_id known e.eto.end_ fuel pos)

/-- The translation of `has_missing_context_nondeleted`
(`missing_context.rs`): `FOLDER` edges short-circuit to `false`;
otherwise the repair set is needed unless the source is alive, the edge
carries `BLOCK`, and the target has no deleted incident edge. -/
def has_missing_context_nondeleted (txn : Txn) (g : Graph)
    (change_id : ChangeId) (e : NewEdge) : Except MissingError Bool :=
  if EdgeFlags.hasFlag e.flag EdgeFlags.FOLDER then Except.ok false
  else do
    let sp ← internal_pos txn e.efrom change_id
    let source ← match find_block_end g sp with
      | some v => Except.ok v
      | Option.none => Except.error (MissingError.block sp)
    let tp ← internal_pos txn e.eto.start_pos change_id
    let target ← match find_block g tp with
      | some v => Except.ok v
      | Option.none => Except.error (MissingError.block tp)
    if is_alive g source && EdgeFlags.hasFlag e.flag EdgeFlags.BLOCK then
      Except.ok
        (!(iter_adjacent g target EdgeFlags.DELETED
            (EdgeFlags.without EdgeFlags.all EdgeFlags.PARENT)).isEmpty)
    else Except.ok true

/-- A stack element of the `repair_zombies` traversal. -/
structure StackElt where
  vertex : Vertex
  last_alive : Vertex
  is_on_path : Bool
deriving DecidableEq

def StackElt.is_alive (e : StackElt) : Bool := e.vertex == e.last_alive

/-- The child scan of one `repair_zombies` iteration: walk the edges of
the popped vertex in storage order; an alive incoming `PARENT` edge
(`BLOCK` and not `DELETED`) marks the re-pushed element alive, a
non-`PARENT` `FOLDER` edge makes the whole traversal return (`none`
result), and on a first visit every other non-`PARENT` edge pushes its
resolved child. -/
def rz_scan (g : Graph) (elt : StackElt) (first_visit : Bool) :
    List Edge → StackElt → List StackElt →
    Except PhaseError (Option (StackElt × List StackElt))
  | [], top, acc => Except.ok (some (top, acc))
  | e :: rest, top, acc =>
    if EdgeFlags.hasFlag e.flag EdgeFlags.PARENT then
      if e.flag &&& (EdgeFlags.BLOCK ||| EdgeFlags.DELETED) == EdgeFlags.BLOCK then
        rz_scan g elt first_visit rest { top with last_alive := elt.vertex } acc
      else rz_scan g elt first_visit rest top acc
    else if EdgeFlags.hasFlag e.flag EdgeFlags.FOLDER then Except.ok Option.none
    else if first_visit then
      match find_block g e.dest with
      | some child => rz_scan g elt first_visit rest top
          (acc ++ [⟨child, elt.last_alive, false⟩])
      | Option.none => Except.error (PhaseError.block e.dest)
    else rz_scan g elt first_visit rest top acc

/-- The main loop of `repair_zombies`, with the stack's top at the head
of the list and `visited` as a set of `(vertex, last_alive)` pairs.
The source's `while` loop is translated with fuel; exhaustion (which
the terminating source loop never reaches) is reported as
`corruption`. -/
def rz_loop : Nat → Graph → List StackElt → List (Vertex × Vertex) →
    Except PhaseError Graph
  | 0, _, _, _ => Except.error PhaseError.corruption
  | fuel + 1, g, stack, visited =>
    match stack with
    | [] => Except.ok g
    | elt :: rest =>
      if (elt.vertex, elt.vertex) ∈ visited then rz_loop fuel g rest visited
      else
        let first_visit := !((elt.vertex, elt.last_alive) ∈ visited : Bool)
        let visited1 := (elt.vertex, elt.last_alive) :: visited
        let top0 : StackElt := { elt with is_on_path := true }
        let scanRes :=
          if !elt.is_on_path then
            rz_scan g elt first_visit
              (iter_adjacent g elt.vertex EdgeFlags.empty EdgeFlags.all) top0 []
          else Except.ok (some (top0, []))
        match scanRes with
        | Except.error e => Except.error e
        | Except.ok Option.none => Except.ok g
        | Except.ok (some (top1, children)) =>
          if rest.length + 1 ≥ 2 && top1.is_alive then
            let visited2 := (elt.vertex, elt.vertex) ::
              visited1.filter (fun x => x ≠ (elt.vertex, elt.last_alive))
            let children1 := children.map (fun c => { c with last_alive := elt.vertex })
            let g1 := match rest.find? (·.is_on_path) with
              | some lop =>
                if !lop.is_alive then
                  put_graph_with_rev g EdgeFlags.PSEUDO elt.last_alive top1.vertex
                    ChangeId.ROOT
                else g
              | Option.none => g
            let stack1 := if children1.isEmpty then rest
              else children1.reverse ++ top1 :: rest
            rz_loop fuel g1 stack1 visited2
          else
            let stack1 := if children.isEmpty then rest
              else children.reverse ++ top1 :: rest
            rz_loop fuel g stack1 visited1

/-- The translation of `repair_zombies` (`apply.rs`): depth-first
traversal from the inode's marker vertex, reconnecting alive vertices
whose path from the last alive ancestor runs through dead ones with
`PSEUDO` edges introduced by `ROOT`. -/
def repair_zombies (fuel : Nat) (g : Graph) (root : Position) :
    Except PhaseError Graph :=
  rz_loop fuel g [⟨root.inode_vertex, root.inode_vertex, false⟩] []

/-- The observable state of a `ConflictsWriter` (`vertex_buffer.rs`):
the bytes written so far, the line counter and the `new_line` flag. -/
structure CWState where
  out : List Char
  lines : Nat
  new_line : Bool
deriving DecidableEq

/-- A fresh `ConflictsWriter`: nothing written, `lines = 1`,
`new_line = true`. -/
def CWState.init : CWState := { out := [], lines := 1, new_line := true }

/-- The translation of `ConflictsWriter::output_line`: write the
buffer, count its newlines, and (for a non-empty buffer) record whether
it ended with a newline. -/
def output_line (st : CWState) (buf : List Char) : CWState :=
  { out := st.out ++ buf
    lines := st.lines + buf.count '\n'
    new_line := if buf.isEmpty then st.new_line else buf.getLast? == some '\n' }

/-- One side annotation of a conflict marker, as written by the source:
a space, an opening bracket, the 8-character hash, a space, the change
message's first line, and a closing bracket. -/
def side_text (s : List Char × List Char) : List Char :=
  [' ', '['] ++ s.1 ++ [' '] ++ s.2 ++ [']']

/-- The body of a conflict-marker line: the marker string, a space, the
conflict id, the side annotations, and a terminating newline. -/
def marker_line (s : List Char) (id : Nat) (sides : List (List Char × List Char)) :
    List Char :=
  s ++ [' '] ++ (Nat.repr id).data ++ sides.flatMap side_text ++ ['\n']

/-- The translation of `ConflictsWriter::output_conflict_marker`: when
the previous output did not end a line, first write a newline (counting
two lines), else count one; then write the marker line and set
`new_line`. -/
def output_conflict_marker (st : CWState) (s : List Char) (id : Nat)
    (sides : List (List Char × List Char)) : CWState :=
  if !st.new_line then
    { out := st.out ++ '\n' :: marker_line s id sides
      lines := st.lines + 2
      new_line := true }
  else
    { out := st.out ++ marker_line s id sides
      lines := st.lines + 1
      new_line := true }

/-- The writer states reachable by any sequence of `output_line` and
`output_conflict_marker` calls.  The marker components carry the
newline-freeness that holds at every call site (the three fixed marker
strings, a rendered integer id, base32 hashes and first lines of
change messages). -/
inductive CWReaches : CWState → Prop
  | init : CWReaches CWState.init
  | line (st : CWState) (buf : List Char) :
      CWReaches st → CWReaches (output_line st buf)
  | marker (st : CWState) (s : List Char) (id : Nat)
      (sides : List (List Char × List Char)) :
      CWReaches st → '\n' ∉ s →
      (∀ p ∈ sides, '\n' ∉ p.1 ∧ '\n' ∉ p.2) →
      CWReaches (output_conflict_marker st s id sides)

theorem digitChar_ne_newline (n : Nat) : Nat.digitChar n ≠ '\n' := by
  by_cases h : n < 16
  · interval_cases n <;> decide
  · have h2 : Nat.digitChar n = '*' := by
      unfold Nat.digitChar
      repeat rw [if_neg (by omega)]
    rw [h2]
    decide

theorem toDigitsCore_ne_newline (b : Nat) :
    ∀ (fuel n : Nat) (ds : List Char), (∀ c ∈ ds, c ≠ '\n') →
      ∀ c ∈ Nat.toDigitsCore b fuel n ds, c ≠ '\n' := by
  intro fuel
  induction fuel with
  | zero => intro n ds h; simpa [Nat.toDigitsCore] using h
  | succ f ih =>
    intro n ds h c hc
    simp only [Nat.toDigitsCore] at hc
    by_cases h0 : n / b = 0
    · simp only [h0, if_pos rfl] at hc
      rcases List.mem_cons.mp hc with rfl | hmem
      · exact digitChar_ne_newline _
      · exact h _ hmem
    · rw [if_neg h0] at hc
      refine ih (n / b) _ ?_ c hc
      intro c2 hc2
      rcases List.mem_cons.mp hc2 with rfl | hmem
      · exact digitChar_ne_newline _
      · exact h _ hmem

theorem repr_ne_newline (n : Nat) : '\n' ∉ (Nat.repr n).data := by
  intro h
  exact toDigitsCore_ne_newline 10 (n + 1) n [] (by simp) _ h rfl

theorem side_text_ne_newline (p : List Char × List Char)
    (h1 : '\n' ∉ p.1) (h2 : '\n' ∉ p.2) : '\n' ∉ side_text p := by
  intro hin
  simp only [side_text, List.append_assoc, List.mem_append, List.mem_cons,
    List.not_mem_nil, or_false, List.mem_singleton] at hin
  rcases hin with (hc | hc) | hc | hc | hc | hc
  · exact absurd hc (by decide)
  · exact absurd hc (by decide)
  · exact h1 hc
  · exact absurd hc (by decide)
  · exact h2 hc
  · exact absurd hc (by decide)

theorem marker_line_count (s : List Char) (id : Nat)
    (sides : List (List Char × List Char)) (hs : '\n' ∉ s)
    (hsides : ∀ p ∈ sides, '\n' ∉ p.1 ∧ '\n' ∉ p.2) :
    (marker_line s id sides).count '\n' = 1 := by
  have hid := repr_ne_newline id
  have hflat : '\n' ∉ sides.flatMap side_text := by
    intro hmem
    rcases List.mem_flatMap.mp hmem with ⟨p, hp, hin⟩
    rcases hsides p hp with ⟨h1, h2⟩
    exact side_text_ne_newline p h1 h2 hin
  simp only [marker_line, List.count_append]
  rw [List.count_eq_zero.mpr hs, List.count_eq_zero.mpr hid,
    List.count_eq_zero.mpr hflat]
  decide

theorem marker_line_getLast (s : List Char) (id : Nat)
    (sides : List (List Char × List Char)) :
    (marker_line s id sides).getLast? = some '\n' :=
  List.getLast?_concat _

/-- The data invariant of a reachable conflict writer: `new_line`
records whether the output so far ends a line, and `lines` is one more
than the number of newlines written. -/
theorem cw_invariant {st : CWState} (h : CWReaches st) :
    (st.new_line = true ↔ (st.out = [] ∨ st.out.getLast? = some '\n')) ∧
      st.lines = 1 + st.out.count '\n' := by
  induction h with
  | init => simp [CWState.init]
  | line st buf _ ih =>
    rcases ih with ⟨ih1, ih2⟩
    by_cases hb : buf = []
    · subst hb
      simpa [output_line] using ⟨ih1, ih2⟩
    · have hbe : buf.isEmpty = false := by simpa using hb
      constructor
      · simp only [output_line, hbe, Bool.false_eq_true, if_false]
        rw [List.getLast?_append_of_ne_nil _ hb]
        constructor
        · intro hbeq
          exact Or.inr (beq_iff_eq.mp hbeq)
        · intro hd
          rcases hd with hd | hd
          · exact absurd (List.append_eq_nil.mp hd).2 hb
          · exact beq_iff_eq.mpr hd
      · simp only [output_line, List.count_append]
        omega
  | marker st s id sides _ hs hsides ih =>
    rcases ih with ⟨ih1, ih2⟩
    have hml := marker_line_count s id sides hs hsides
    have hlast := marker_line_getLast s id sides
    have hne : marker_line s id sides ≠ [] := by
      simp [marker_line]
    by_cases hnl : st.new_line
    · constructor
      · simp only [output_conflict_marker, hnl, Bool.not_true, Bool.false_eq_true,
          if_false]
        rw [List.getLast?_append_of_ne_nil _ hne]
        simp [hlast]
      · simp only [output_conflict_marker, hnl, Bool.not_true, Bool.false_eq_true,
          if_false]
        simp only [List.count_append, hml]
        omega
    · have hnl2 : st.new_line = false := by simpa using hnl
      constructor
      · simp only [output_conflict_marker, hnl2, Bool.not_false, if_true]
        rw [List.getLast?_append_of_ne_nil _ (List.cons_ne_nil _ _)]
        rw [List.getLast?_cons, hlast]
        simp [hne]
      · simp only [output_conflict_marker, hnl2, Bool.not_false, if_true]
        rw [show ('\n' :: marker_line s id sides) = ['\n'] ++ marker_line s id sides from rfl]
        simp only [List.count_append, hml]
        have hone : List.count '\n' ['\n'] = 1 := by decide
        omega

/-- C9: on any reachable conflict writer, a conflict marker is never
emitted mid-line: a newline is first written exactly when the previous
output did not end one, the marker line is the marker string, a space,
the conflict id, the side annotations and a final newline, and the
`lines` counter advances by two when the extra newline is inserted and
by one otherwise (so it stays one more than the newlines written). -/
theorem conflicts_writer_marker_on_fresh_line (st : CWState) (s : List Char)
    (id : Nat) (sides : List (List Char × List Char)) (hr : CWReaches st)
    (hs : '\n' ∉ s) (hsides : ∀ p ∈ sides, '\n' ∉ p.1 ∧ '\n' ∉ p.2) :
    (output_conflict_marker st s id sides).out =
      (st.out ++ (if st.new_line then [] else ['\n'])) ++ marker_line s id sides ∧
    ((st.out ++ (if st.new_line then [] else ['\n'])) = [] ∨
      (st.out ++ (if st.new_line then [] else ['\n'])).getLast? = some '\n') ∧
    marker_line s id sides =
      s ++ [' '] ++ (Nat.repr id).data ++ sides.flatMap side_text ++ ['\n'] ∧
    (output_conflict_marker st s id sides).lines =
      st.lines + (if st.new_line then 1 else 2) ∧
    (output_conflict_marker st s id sides).lines =
      1 + ((output_conflict_marker st s id sides).out).count '\n' := by
  have hinv := cw_invariant hr
  have hinv2 := cw_invariant (CWReaches.marker st s id sides hr hs hsides)
  by_cases hnl : st.new_line
  · refine ⟨?_, ?_, rfl, ?_, hinv2.2⟩
    · simp [output_conflict_marker, hnl]
    · rcases hinv.1.mp hnl with h0 | h0
      · simp [hnl, h0]
      · simp [hnl, h0]
    · simp [output_conflict_marker, hnl]
  · have hnl2 : st.new_line = false := by simpa using hnl
    refine ⟨?_, ?_, rfl, ?_, hinv2.2⟩
    · simp [output_conflict_marker, hnl2]
    · right
      rw [if_neg (by simp [hnl2])]
      exact List.getLast?_concat _
    · simp [output_conflict_marker, hnl2]

/-- Witness for C9 at a concrete reachable writer whose last output
does not end a line. -/
theorem conflicts_writer_marker_on_fresh_line_witness :
    (output_conflict_marker (output_line CWState.init ['a', '\n', 'b'])
        ['>', '>'] 0 []).out =
      ((output_line CWState.init ['a', '\n', 'b']).out ++ ['\n']) ++
        marker_line ['>', '>'] 0 [] ∧
    (output_conflict_marker (output_line CWState.init ['a', '\n', 'b'])
        ['>', '>'] 0 []).lines =
      (output_line CWState.init ['a', '\n', 'b']).lines + 2 := by
  have h := conflicts_writer_marker_on_fresh_line
    (output_line CWState.init ['a', '\n', 'b']) ['>', '>'] 0 []
    (CWReaches.line _ _ CWReaches.init) (by decide) (by simp)
  have h1 := h.1
  have h4 := h.2.2.2.1
  rw [if_neg (by decide)] at h1 h4
  exact ⟨h1, h4⟩

/-- The edge loop of `has_missing_edge_context` (`apply.rs`): check
each edge with the matching context check, and record the inode on the
first positive one. -/
def hmec_loop (fuel : Nat) (txn : Txn) (g : Graph) (change_id : ChangeId)
    (known : Hash → Bool) (inode : Position) (inodes : List Position) :
    List NewEdge → Except MissingError (List Position)
  | [] => Except.ok inodes
  | e :: rest => do
    let b ← if EdgeFlags.hasFlag e.flag EdgeFlags.DELETED then
        has_missing_context_deleted fuel txn g change_id known e
      else has_missing_context_nondeleted txn g change_id e
    if b then Except.ok (inodes ++ [inode])
    else hmec_loop fuel txn g change_id known inode inodes rest

/-- The translation of `has_missing_edge_context` (`apply.rs`): resolve
the atom's inode and, unless it is already scheduled, scan the atom's
edges for a missing context. -/
def has_missing_edge_context (fuel : Nat) (txn : Txn) (g : Graph)
    (change_id : ChangeId) (known : Hash → Bool) (n : EdgeMap)
    (inodes : List Position) : Except MissingError (List Position) := do
  let inode ← internal_pos txn n.inode change_id
  if inode ∈ inodes then Except.ok inodes
  else hmec_loop fuel txn g change_id known inode inodes n.edges

theorem hmec_loop_all_folder (fuel : Nat) (txn : Txn) (g : Graph)
    (change_id : ChangeId) (known : Hash → Bool) (inode : Position)
    (inodes : List Position) :
    ∀ es : List NewEdge,
      (∀ e2 ∈ es, EdgeFlags.hasFlag e2.flag EdgeFlags.FOLDER = true) →
      hmec_loop fuel txn g change_id known inode inodes es = Except.ok inodes := by
  intro es h
  induction es with
  | nil => rfl
  | cons e2 rest ih =>
    have hf2 := h e2 (List.mem_cons_self _ _)
    have hrest := ih (fun e3 he3 => h e3 (List.mem_cons_of_mem _ he3))
    by_cases hd : EdgeFlags.hasFlag e2.flag EdgeFlags.DELETED = true
    · simp [hmec_loop, hd, has_missing_context_deleted, hf2, hrest, Bind.bind, Except.bind]
    · simp [hmec_loop, hd, has_missing_context_nondeleted, hf2, hrest, Bind.bind, Except.bind]

/-- C10: both missing-context checks short-circuit on the `FOLDER` bit:
an `EdgeMap` edge whose flag contains `FOLDER` makes
`has_missing_context_deleted` and `has_missing_context_nondeleted`
return `false` regardless of the graph and of the aliveness of the
edge's endpoints, and consequently an `EdgeMap` atom all of whose edges
are `FOLDER` never adds its inode to the zombie-repair set. -/
theorem folder_edge_no_missing_context (fuel : Nat) (txn : Txn) (g : Graph)
    (change_id : ChangeId) (known : Hash → Bool) (e : NewEdge)
    (n : EdgeMap) (inodes : List Position)
    (hf : EdgeFlags.hasFlag e.flag EdgeFlags.FOLDER = true)
    (hn : ∀ e2 ∈ n.edges, EdgeFlags.hasFlag e2.flag EdgeFlags.FOLDER = true) :
    has_missing_context_deleted fuel txn g change_id known e =
        Except.ok false ∧
    has_missing_context_nondeleted txn g change_id e =Except.ok false ∧
    has_missing_edge_context fuel txn g change_id known n inodes =
      (internal_pos txn n.inode change_id).map (fun _ => inodes) := by
  refine ⟨?_, ?_, ?_⟩
  · simp [has_missing_context_deleted, hf]
  · simp [has_missing_context_nondeleted, hf]
  · unfold has_missing_edge_context
    cases hpos : internal_pos txn n.inode change_id with
    | error err => simp [Except.map, hpos, Bind.bind, Except.bind]
    | ok ipos =>
      simp only [Except.map, hpos, Bind.bind, Except.bind]
      by_cases hmem : ipos ∈ inodes
      · simp [hmem]
      · rw [if_neg hmem]
        exact hmec_loop_all_folder fuel txn g change_id known ipos inodes n.edges hn

/-- Witness for C10 at a concrete folder edge and folder atom. -/
theorem folder_edge_no_missing_context_witness :
    has_missing_context_nondeleted ⟨fun _ => Option.none, fun _ => Option.none, 0⟩
        [] 1 ⟨EdgeFlags.FOLDER ||| EdgeFlags.BLOCK, ⟨Option.none, 0⟩,
          ⟨Option.none, 1, 1⟩⟩ = Except.ok false := by
  have h := folder_edge_no_missing_context 5
    ⟨fun _ => Option.none, fun _ => Option.none, 0⟩ [] 1 (fun _ => false)
    ⟨EdgeFlags.FOLDER ||| EdgeFlags.BLOCK, ⟨Option.none, 0⟩, ⟨Option.none, 1, 1⟩⟩
    ⟨[], ⟨Option.none, 0⟩⟩ [] (by decide) (by simp)
  exact h.2.1

theorem put_changes_already {ch : Channel} {p : ChangeId} {t : Nat} {h : Hash}
    {t0 : Nat} (hc : ch.changes p = some t0) :
    put_changes ch p t h = (Option.none, ch) := by
  simp [put_changes, hc]

theorem put_changes_ok {ch : Channel} {p : ChangeId} {t : Nat} {h : Hash}
    {m : Merkle} {ch1 : Channel}
    (hput : put_changes ch p t h = (some m, ch1)) :
    ch1.changes p = some t ∧ ch1.graph = ch.graph ∧
      ch1.apply_counter = ch.apply_counter + 1 := by
  unfold put_changes at hput
  cases hc : ch.changes p with
  | some t0 =>
    rw [hc] at hput
    simp at hput
  | none =>
    rw [hc] at hput
    have h2 := congrArg Prod.snd hput
    simp only at h2
    rw [← h2]
    simp

/-- C3: a change already present on the channel makes
`apply_change_to_channel` fail with `ChangeAlreadyOnChannel` carrying
the hash (`put_changes` returns `None` before anything is written),
leaving the graph and every channel table untouched; consequently a
second application of a change right after a successful first one fails
that way and leaves the channel exactly as after the first
application. -/
theorem change_already_on_channel_not_mutated
    (phases phases2 : Graph → Except PhaseError Graph) (ch : Channel)
    (cid : ChangeId) (hash : Hash) :
    (∀ t, ch.changes cid = some t →
      apply_change_to_channel phases ch cid hash =
        (Except.error (ApplyError.changeAlreadyOnChannel hash), ch)) ∧
    (∀ r ch1, apply_change_to_channel phases ch cid hash = (Except.ok r, ch1) →
      apply_change_to_channel phases2 ch1 cid hash =
        (Except.error (ApplyError.changeAlreadyOnChannel hash), ch1)) := by
  have halready : ∀ (ph : Graph → Except PhaseError Graph) (ch2 : Channel) (t : Nat),
      ch2.changes cid = some t →
      apply_change_to_channel ph ch2 cid hash =
        (Except.error (ApplyError.changeAlreadyOnChannel hash), ch2) := by
    intro ph ch2 t h
    unfold apply_change_to_channel
    rw [put_changes_already h]
  constructor
  · exact fun t h => halready phases ch t h
  · intro r ch1 happ
    unfold apply_change_to_channel at happ
    rcases hput : put_changes ch cid ch.apply_counter hash with ⟨o, chp⟩
    rw [hput] at happ
    cases o with
    | none => simp at happ
    | some m =>
      simp only at happ
      cases hph : phases chp.graph with
      | error e =>
        rw [hph] at happ
        simp at happ
      | ok g =>
        rw [hph] at happ
        simp only [Prod.mk.injEq] at happ
        have hch1 : ch1.changes cid = some ch.apply_counter := by
          rw [← happ.2]
          exact (put_changes_ok hput).1
        exact halready phases2 ch1 ch.apply_counter hch1

/-- Witness for C3: applying a change whose id is already in the
channel's changeset fails and returns the channel unchanged. -/
theorem change_already_on_channel_not_mutated_witness :
    apply_change_to_channel (fun g => Except.ok g)
        { Channel.empty with changes := fun q => if q = 5 then some 0 else Option.none }
        5 (Hash.blake3 7) =
      (Except.error (ApplyError.changeAlreadyOnChannel (Hash.blake3 7)),
        { Channel.empty with
            changes := fun q => if q = 5 then some 0 else Option.none }) :=
  (change_already_on_channel_not_mutated (fun g => Except.ok g)
    (fun g => Except.ok g) _ 5 (Hash.blake3 7)).1 0 (by simp)

theorem dep_missing_iff (txn : Txn) (ch : Channel) (d : Hash) :
    dep_missing txn ch d = true ↔
      ¬∃ i, txn.internal d = some i ∧ ∃ t, ch.changes i = some t := by
  unfold dep_missing
  cases hint : txn.internal d with
  | none => simp [hint]
  | some i =>
    simp only [hint, Bool.not_eq_true']
    constructor
    · intro hb hex
      rcases hex with ⟨j, hj, t, ht⟩
      cases hj
      rw [ht] at hb
      simp at hb
    · intro hne
      cases hcc : ch.changes i with
      | none => simp
      | some t => exact absurd ⟨i, rfl, t, hcc⟩ hne

theorem apply_to_channel_no_depmissing
    (phases : Graph → Except PhaseError Graph) (ch : Channel)
    (cid : ChangeId) (hash h : Hash) :
    (apply_change_to_channel phases ch cid hash).1 ≠
      Except.error (ApplyError.dependencyMissing h) := by
  unfold apply_change_to_channel
  rcases hput : put_changes ch cid ch.apply_counter hash with ⟨o, chp⟩
  cases o with
  | none => simp
  | some m =>
    simp only
    cases hph : phases chp.graph with
    | error e => cases e <;> simp [PhaseError.toApplyError]
    | ok g => simp

/-- C4: `apply_change_ws` fails with `DependencyMissing` exactly when
some declared dependency other than the sentinel `Hash::None` has no
internal id or no changeset entry on the target channel; in that case
it fails before allocating an internal id or mutating anything (the
transaction and channel are returned unchanged). -/
theorem dependency_missing_iff (getChange : Hash → Change)
    (phases : Graph → Except PhaseError Graph)
    (txn : Txn) (ch : Channel) (hash : Hash) :
    ((∃ h, (apply_change_ws getChange phases txn ch hash).1 =
        Except.error (ApplyError.dependencyMissing h)) ↔
      (∃ d ∈ (getChange hash).dependencies, d ≠ Hash.none ∧
        ¬∃ i, txn.internal d = some i ∧ ∃ t, ch.changes i = some t)) ∧
    (∀ h, (apply_change_ws getChange phases txn ch hash).1 =
        Except.error (ApplyError.dependencyMissing h) →
      (apply_change_ws getChange phases txn ch hash).2 = (txn, ch)) := by
  cases hf : first_missing_dep txn ch (getChange hash).dependencies with
  | some h0 =>
    have hm : h0 ∈ (getChange hash).dependencies :=
      List.mem_of_find?_eq_some hf
    have hp := List.find?_some hf
    rw [Bool.and_eq_true, Bool.not_eq_true'] at hp
    have hne : h0 ≠ Hash.none := by
      intro hcon
      rw [hcon] at hp
      simp at hp
    have hmiss := (dep_missing_iff txn ch h0).mp hp.2
    constructor
    · constructor
      · intro _
        exact ⟨h0, hm, hne, hmiss⟩
      · intro _
        refine ⟨h0, ?_⟩
        simp [apply_change_ws, hf]
    · intro h hh
      simp [apply_change_ws, hf]
  | none =>
    have hall := List.find?_eq_none.mp hf
    constructor
    · constructor
      · intro hex
        rcases hex with ⟨h, hh⟩
        exfalso
        simp only [apply_change_ws, hf] at hh
        exact apply_to_channel_no_depmissing phases ch _ hash h hh
      · intro hex
        rcases hex with ⟨d, hd, hdn, hdm⟩
        exfalso
        have := hall d hd
        rw [Bool.and_eq_true, Bool.not_eq_true'] at this
        exact this ⟨by simpa using hdn, (dep_missing_iff txn ch d).mpr hdm⟩
    · intro h hh
      exfalso
      simp only [apply_change_ws, hf] at hh
      exact apply_to_channel_no_depmissing phases ch _ hash h hh

/-- Witness for C4: a change declaring one dependency that is absent
from an empty channel fails with `DependencyMissing`. -/
theorem dependency_missing_iff_witness :
    ∃ h, (apply_change_ws (fun _ => ⟨[Hash.blake3 1], []⟩) (fun g => Except.ok g)
        ⟨fun _ => Option.none, fun _ => Option.none, 0⟩ Channel.empty
        (Hash.blake3 9)).1 =
      Except.error (ApplyError.dependencyMissing h) :=
  (dependency_missing_iff (fun _ => ⟨[Hash.blake3 1], []⟩) (fun g => Except.ok g)
      ⟨fun _ => Option.none, fun _ => Option.none, 0⟩ Channel.empty
      (Hash.blake3 9)).1.mpr
    ⟨Hash.blake3 1, by simp, by decide, by simp⟩

/-- C5: the write loops of `apply_change_to_channel` are two-phased:
the first loop emits every `NewVertex` atom and every `EdgeMap` edge
whose flag does not contain `DELETED`, in atom order, and the second
loop emits exactly the edges whose flag contains `DELETED`; in the
combined execution order every deletion write comes after every
non-deletion write of the change. -/
theorem apply_write_ops_two_passes (c : Change) :
    (∀ op ∈ c.changes.flatMap (fun hunk => hunk.flatMap pass_one_atom),
      op.isDeletion = false) ∧
    (∀ op ∈ c.changes.flatMap (fun hunk => hunk.flatMap pass_two_atom),
      op.isDeletion = true) ∧
    (∀ hunk ∈ c.changes, ∀ atom ∈ hunk, ∀ nv, atom = Atom.newVertex nv →
      ApplyOp.newVertex nv ∈
        c.changes.flatMap (fun hunk => hunk.flatMap pass_one_atom)) ∧
    (∀ hunk ∈ c.changes, ∀ atom ∈ hunk, ∀ em, atom = Atom.edgeMap em →
      ∀ e ∈ em.edges,
      (EdgeFlags.hasFlag e.flag EdgeFlags.DELETED = false →
        ApplyOp.newEdge em.inode e ∈
          c.changes.flatMap (fun hunk => hunk.flatMap pass_one_atom)) ∧
      (EdgeFlags.hasFlag e.flag EdgeFlags.DELETED = true →
        ApplyOp.newEdge em.inode e ∈
          c.changes.flatMap (fun hunk => hunk.flatMap pass_two_atom))) ∧
    (∀ i j (hi : i < (apply_write_ops c).length)
        (hj : j < (apply_write_ops c).length),
      ((apply_write_ops c).get ⟨i, hi⟩).isDeletion = false →
      ((apply_write_ops c).get ⟨j, hj⟩).isDeletion = true → i < j) := by
  have hp1 : ∀ op ∈ c.changes.flatMap (fun hunk => hunk.flatMap pass_one_atom),
      op.isDeletion = false := by
    intro op hop
    rcases List.mem_flatMap.mp hop with ⟨hunk, _, hop2⟩
    rcases List.mem_flatMap.mp hop2 with ⟨atom, _, hop3⟩
    cases atom with
    | newVertex n =>
      simp only [pass_one_atom, List.mem_singleton] at hop3
      subst hop3
      rfl
    | edgeMap n =>
      simp only [pass_one_atom] at hop3
      rcases List.mem_filterMap.mp hop3 with ⟨e, _, he⟩
      by_cases hd : EdgeFlags.hasFlag e.flag EdgeFlags.DELETED
      · rw [if_pos hd] at he
        cases he
      · rw [if_neg hd] at he
        cases he
        simpa [ApplyOp.isDeletion] using hd
  have hp2 : ∀ op ∈ c.changes.flatMap (fun hunk => hunk.flatMap pass_two_atom),
      op.isDeletion = true := by
    intro op hop
    rcases List.mem_flatMap.mp hop with ⟨hunk, _, hop2⟩
    rcases List.mem_flatMap.mp hop2 with ⟨atom, _, hop3⟩
    cases atom with
    | newVertex n => cases hop3
    | edgeMap n =>
      simp only [pass_two_atom] at hop3
      rcases List.mem_filterMap.mp hop3 with ⟨e, _, he⟩
      by_cases hd : EdgeFlags.hasFlag e.flag EdgeFlags.DELETED
      · rw [if_pos hd] at he
        cases he
        simpa [ApplyOp.isDeletion] using hd
      · rw [if_neg hd] at he
        cases he
  refine ⟨hp1, hp2, ?_, ?_, ?_⟩
  · intro hunk hh atom ha nv heq
    subst heq
    refine List.mem_flatMap.mpr ⟨hunk, hh, List.mem_flatMap.mpr ⟨_, ha, ?_⟩⟩
    simp [pass_one_atom]
  · intro hunk hh atom ha em heq e he
    subst heq
    constructor
    · intro hd
      refine List.mem_flatMap.mpr ⟨hunk, hh, List.mem_flatMap.mpr ⟨_, ha, ?_⟩⟩
      simp only [pass_one_atom]
      exact List.mem_filterMap.mpr ⟨e, he, by rw [hd]; rfl⟩
    · intro hd
      refine List.mem_flatMap.mpr ⟨hunk, hh, List.mem_flatMap.mpr ⟨_, ha, ?_⟩⟩
      simp only [pass_two_atom]
      exact List.mem_filterMap.mpr ⟨e, he, by rw [hd]; rfl⟩
  · intro i j hi hj hfi hfj
    set p1 := c.changes.flatMap (fun hunk => hunk.flatMap pass_one_atom) with hp1def
    set p2 := c.changes.flatMap (fun hunk => hunk.flatMap pass_two_atom) with hp2def
    have hlen : (apply_write_ops c).length = p1.length + p2.length := by
      simp [apply_write_ops, hp1def, hp2def]
    by_cases hip : i < p1.length
    · by_cases hjp : j < p1.length
      · exfalso
        have : (apply_write_ops c).get ⟨j, hj⟩ = p1.get ⟨j, hjp⟩ := by
          simp [apply_write_ops, List.getElem_append_left hjp]
        rw [this] at hfj
        have := hp1 _ (p1.get_mem j hjp)
        rw [hfj] at this
        cases this
      · omega
    · exfalso
      have hip2 : p1.length ≤ i := by omega
      have : (apply_write_ops c).get ⟨i, hi⟩ =
          p2.get ⟨i - p1.length, by rw [hlen] at hi; omega⟩ := by
        simp [apply_write_ops, List.getElem_append_right hip2]
      rw [this] at hfi
      have := hp2 _ (p2.get_mem (i - p1.length) (by rw [hlen] at hi; omega))
      rw [hfi] at this
      cases this

/-- Witness for C5: in a change with one `EdgeMap` atom, a `DELETED`
edge is written by the second pass. -/
theorem apply_write_ops_two_passes_witness :
    ApplyOp.newEdge ⟨Option.none, 0⟩
        ⟨EdgeFlags.DELETED ||| EdgeFlags.BLOCK, ⟨Option.none, 1⟩,
          ⟨Option.none, 2, 3⟩⟩ ∈
      ([[Atom.edgeMap ⟨[⟨EdgeFlags.DELETED ||| EdgeFlags.BLOCK, ⟨Option.none, 1⟩,
          ⟨Option.none, 2, 3⟩⟩], ⟨Option.none, 0⟩⟩]] : List (List Atom)).flatMap
        (fun hunk => hunk.flatMap pass_two_atom) :=
  ((apply_write_ops_two_passes
      ⟨[], [[Atom.edgeMap ⟨[⟨EdgeFlags.DELETED ||| EdgeFlags.BLOCK,
        ⟨Option.none, 1⟩, ⟨Option.none, 2, 3⟩⟩], ⟨Option.none, 0⟩⟩]]⟩).2.2.2.1
    [Atom.edgeMap ⟨[⟨EdgeFlags.DELETED ||| EdgeFlags.BLOCK,
        ⟨Option.none, 1⟩, ⟨Option.none, 2, 3⟩⟩], ⟨Option.none, 0⟩⟩]
    (by simp)
    (Atom.edgeMap ⟨[⟨EdgeFlags.DELETED ||| EdgeFlags.BLOCK,
        ⟨Option.none, 1⟩, ⟨Option.none, 2, 3⟩⟩], ⟨Option.none, 0⟩⟩)
    (by simp)
    ⟨[⟨EdgeFlags.DELETED ||| EdgeFlags.BLOCK,
        ⟨Option.none, 1⟩, ⟨Option.none, 2, 3⟩⟩], ⟨Option.none, 0⟩⟩
    rfl
    ⟨EdgeFlags.DELETED ||| EdgeFlags.BLOCK, ⟨Option.none, 1⟩, ⟨Option.none, 2, 3⟩⟩
    (by simp)).2 (by decide)

theorem mem_edgesOf {g : Graph} {v : Vertex} {e : Edge} :
    e ∈ Graph.edgesOf g v ↔ (v, e) ∈ g := by
  simp only [Graph.edgesOf, List.mem_map, List.mem_filter, decide_eq_true_eq]
  constructor
  · rintro ⟨⟨b1, b2⟩, ⟨hb, hbv⟩, rfl⟩
    simp only at hbv
    subst hbv
    exact hb
  · intro h
    exact ⟨(v, e), ⟨h, rfl⟩, rfl⟩

theorem first_half_ne_key {key : Vertex} {pos : Nat} (he : pos < key.end_) :
    first_half key pos ≠ key := by
  intro h
  have := congrArg Vertex.end_ h
  simp [first_half] at this
  omega

theorem second_half_ne_key {key : Vertex} {pos : Nat} (hs : key.start < pos) :
    second_half key pos ≠ key := by
  intro h
  have := congrArg Vertex.start h
  simp [second_half] at this
  omega

theorem split_block_step_mem_key {key : Vertex} {pos : Nat} {g1 : Graph}
    {chi e : Edge} (hs : key.start < pos) (he : pos < key.end_) :
    (key, e) ∈ split_block_step key pos g1 chi ↔ ((key, e) ∈ g1 ∧ e ≠ chi) := by
  have hf := @first_half_ne_key key _ he
  have hsh := @second_half_ne_key key _ hs
  unfold split_block_step
  simp only [Graph.mem_put, Graph.mem_del, put_graph_with_rev]
  constructor
  · rintro (hh | ⟨hg2, hne⟩)
    · exfalso
      by_cases hp : EdgeFlags.hasFlag chi.flag EdgeFlags.PARENT
      · rw [if_pos hp] at hh
        exact hf (congrArg Prod.fst hh).symm
      · rw [if_neg hp] at hh
        exact hsh (congrArg Prod.fst hh).symm
    · have hne2 : e ≠ chi := by
        intro hcon
        exact hne (by rw [hcon])
      refine ⟨?_, hne2⟩
      split at hg2
      · simp only [Graph.mem_put] at hg2
        rcases hg2 with hh | hh | hh
        · exact absurd (congrArg Prod.fst hh).symm hsh
        · exact absurd (congrArg Prod.fst hh).symm hf
        · exact hh
      · exact hg2
  · rintro ⟨hg, hne⟩
    right
    refine ⟨?_, by simpa using hne⟩
    split
    · simp only [Graph.mem_put]
      exact Or.inr (Or.inr hg)
    · exact hg

theorem split_block_step_mono {key : Vertex} {pos : Nat} {g1 : Graph}
    {chi e : Edge} {v : Vertex} (hv : v ≠ key) (hmem : (v, e) ∈ g1) :
    (v, e) ∈ split_block_step key pos g1 chi := by
  unfold split_block_step
  simp only [Graph.mem_put, Graph.mem_del, put_graph_with_rev]
  right
  refine ⟨?_, ?_⟩
  · split
    · simp only [Graph.mem_put]
      exact Or.inr (Or.inr hmem)
    · exact hmem
  · intro hcon
    exact hv (congrArg Prod.fst hcon)

theorem split_block_step_adds {key : Vertex} {pos : Nat} {g1 : Graph}
    {chi : Edge} (hs : key.start < pos) (he : pos < key.end_) :
    ((if EdgeFlags.hasFlag chi.flag EdgeFlags.PARENT then first_half key pos
        else second_half key pos), chi) ∈ split_block_step key pos g1 chi ∧
    (EdgeFlags.hasFlag chi.flag (EdgeFlags.PARENT ||| EdgeFlags.BLOCK) = true →
      (first_half key pos,
        (⟨EdgeFlags.without chi.flag EdgeFlags.PARENT,
          (second_half key pos).start_pos, chi.introduced_by⟩ : Edge)) ∈
        split_block_step key pos g1 chi ∧
      (second_half key pos,
        (⟨EdgeFlags.without chi.flag EdgeFlags.PARENT ||| EdgeFlags.PARENT,
          (first_half key pos).end_pos, chi.introduced_by⟩ : Edge)) ∈
        split_block_step key pos g1 chi) := by
  have hf := @first_half_ne_key key _ he
  have hsh := @second_half_ne_key key _ hs
  constructor
  · unfold split_block_step
    simp [Graph.mem_put]
  · intro hpb
    unfold split_block_step
    rw [if_pos hpb]
    constructor
    · simp only [Graph.mem_put, Graph.mem_del, put_graph_with_rev]
      right
      refine ⟨by simp, fun hcon => hf (congrArg Prod.fst hcon)⟩
    · simp only [Graph.mem_put, Graph.mem_del, put_graph_with_rev]
      right
      refine ⟨by simp, fun hcon => hsh (congrArg Prod.fst hcon)⟩

theorem split_block_fold_key {key : Vertex} {pos : Nat}
    (hs : key.start < pos) (he : pos < key.end_) :
    ∀ (l : List Edge) (h : Graph) (e : Edge),
      (key, e) ∈ l.foldl (split_block_step key pos) h ↔
        ((key, e) ∈ h ∧ e ∉ l) := by
  intro l
  induction l with
  | nil => simp
  | cons chi rest ih =>
    intro h e
    rw [List.foldl_cons, ih, split_block_step_mem_key hs he, List.mem_cons]
    tauto

theorem split_block_fold_mono {key : Vertex} {pos : Nat} :
    ∀ (l : List Edge) (h : Graph) (v : Vertex) (e : Edge), v ≠ key →
      (v, e) ∈ h → (v, e) ∈ l.foldl (split_block_step key pos) h := by
  intro l
  induction l with
  | nil => intro h v e _ hm; exact hm
  | cons chi rest ih =>
    intro h v e hv hm
    exact ih _ v e hv (split_block_step_mono hv hm)

theorem split_block_fold_adds {key : Vertex} {pos : Nat}
    (hs : key.start < pos) (he : pos < key.end_) :
    ∀ (l : List Edge) (h : Graph) (chi : Edge), chi ∈ l →
      ((if EdgeFlags.hasFlag chi.flag EdgeFlags.PARENT then first_half key pos
          else second_half key pos), chi) ∈ l.foldl (split_block_step key pos) h ∧
      (EdgeFlags.hasFlag chi.flag (EdgeFlags.PARENT ||| EdgeFlags.BLOCK) = true →
        (first_half key pos,
          (⟨EdgeFlags.without chi.flag EdgeFlags.PARENT,
            (second_half key pos).start_pos, chi.introduced_by⟩ : Edge)) ∈
          l.foldl (split_block_step key pos) h ∧
        (second_half key pos,
          (⟨EdgeFlags.without chi.flag EdgeFlags.PARENT ||| EdgeFlags.PARENT,
            (first_half key pos).end_pos, chi.introduced_by⟩ : Edge)) ∈
          l.foldl (split_block_step key pos) h) := by
  intro l
  induction l with
  | nil => intro h chi hchi; cases hchi
  | cons chi2 rest ih =>
    intro h chi hchi
    rcases List.mem_cons.mp hchi with rfl | hmem
    · have hadds := @split_block_step_adds key pos h chi hs he
      rw [List.foldl_cons]
      constructor
      · refine split_block_fold_mono rest _ _ _ ?_ hadds.1
        by_cases hp : EdgeFlags.hasFlag chi.flag EdgeFlags.PARENT
        · rw [if_pos hp]; exact first_half_ne_key he
        · rw [if_neg hp]; exact second_half_ne_key hs
      · intro hpb
        exact ⟨split_block_fold_mono rest _ _ _ (first_half_ne_key he)
            ((hadds.2 hpb).1),
          split_block_fold_mono rest _ _ _ (second_half_ne_key hs)
            ((hadds.2 hpb).2)⟩
    · rw [List.foldl_cons]
      exact ih _ chi hmem

theorem hasFlag_without_parent_block {f : Nat}
    (h : EdgeFlags.hasFlag f (EdgeFlags.PARENT ||| EdgeFlags.BLOCK) = true) :
    EdgeFlags.hasFlag (EdgeFlags.without f EdgeFlags.PARENT) EdgeFlags.BLOCK = true := by
  have h33 : f &&& 33 = 33 := by
    have := of_decide_eq_true h
    simpa [EdgeFlags.hasFlag, EdgeFlags.PARENT, EdgeFlags.BLOCK] using h
  have h32 : f &&& 32 = 32 := by
    have := congrArg (fun x => x &&& 32) h33
    simpa [Nat.and_assoc] using this
  have h1 : f &&& 1 = 1 := by
    have := congrArg (fun x => x &&& 1) h33
    simpa [Nat.and_assoc] using this
  have hge : 32 ≤ f := by
    calc (32 : Nat) = f &&& 32 := h32.symm
    _ ≤ f := Nat.and_le_left
  have hmod : f % 2 = 1 := by
    rw [← Nat.and_one_is_mod]
    exact h1
  simp only [EdgeFlags.hasFlag, EdgeFlags.without, EdgeFlags.PARENT, EdgeFlags.BLOCK,
    h32]
  rw [show (f - 32) &&& 1 = (f - 32) % 2 from Nat.and_one_is_mod _]
  have h2 : (f - 32) % 2 = 1 := by omega
  rw [h2]
  rfl

/-- C7: for `key.start < pos < key.end`, `split_block` removes every
edge bound to `key`, re-binds each under the first half `[start, pos)`
when its flag contains `PARENT` and under the second half `[pos, end)`
otherwise, and for each edge whose flag contains `PARENT | BLOCK`
additionally inserts a connecting edge (whose flag drops `PARENT` and
hence still contains `BLOCK`) from the first half to the second half,
stored in both directions; bindings of other vertices are preserved, so
reachability through the original vertex persists through the two
halves and the connecting edges. -/
theorem split_block_spec (g : Graph) (key : Vertex) (pos : Nat)
    (hs : key.start < pos) (he : pos < key.end_)
    (_hroot : ∀ e ∈ Graph.edgesOf g key, e.introduced_by ≠ ChangeId.ROOT ∨
      EdgeFlags.hasFlag e.flag EdgeFlags.PSEUDO = true) :
    (∀ e : Edge, (key, e) ∉ split_block g key pos) ∧
    (∀ e : Edge, (key, e) ∈ g →
      (EdgeFlags.hasFlag e.flag EdgeFlags.PARENT = true →
        (first_half key pos, e) ∈ split_block g key pos) ∧
      (EdgeFlags.hasFlag e.flag EdgeFlags.PARENT = false →
        (second_half key pos, e) ∈ split_block g key pos)) ∧
    (∀ e : Edge, (key, e) ∈ g →
      EdgeFlags.hasFlag e.flag (EdgeFlags.PARENT ||| EdgeFlags.BLOCK) = true →
      EdgeFlags.hasFlag (EdgeFlags.without e.flag EdgeFlags.PARENT)
          EdgeFlags.BLOCK = true ∧
      (first_half key pos,
        (⟨EdgeFlags.without e.flag EdgeFlags.PARENT,
          (second_half key pos).start_pos, e.introduced_by⟩ : Edge)) ∈
        split_block g key pos ∧
      (second_half key pos,
        (⟨EdgeFlags.without e.flag EdgeFlags.PARENT ||| EdgeFlags.PARENT,
          (first_half key pos).end_pos, e.introduced_by⟩ : Edge)) ∈
        split_block g key pos) ∧
    (∀ (v : Vertex) (e : Edge), v ≠ key → (v, e) ∈ g →
      (v, e) ∈ split_block g key pos) := by
  refine ⟨?_, ?_, ?_, ?_⟩
  · intro e hmem
    rw [split_block, split_block_fold_key hs he] at hmem
    exact hmem.2 (mem_edgesOf.mpr hmem.1)
  · intro e hmem
    have hadds := split_block_fold_adds hs he (Graph.edgesOf g key) g e
      (mem_edgesOf.mpr hmem)
    constructor
    · intro hp
      have := hadds.1
      rw [if_pos hp] at this
      exact this
    · intro hp
      have := hadds.1
      rw [if_neg (by simp [hp])] at this
      exact this
  · intro e hmem hpb
    have hadds := split_block_fold_adds hs he (Graph.edgesOf g key) g e
      (mem_edgesOf.mpr hmem)
    exact ⟨hasFlag_without_parent_block hpb, (hadds.2 hpb).1, (hadds.2 hpb).2⟩
  · intro v e hv hmem
    exact split_block_fold_mono _ g v e hv hmem

/-- Witness for C7: splitting a two-byte vertex carrying one incoming
`PARENT | BLOCK` edge at its interior byte. -/
theorem split_block_spec_witness :
    (first_half ⟨2, 0, 2⟩ 1,
      (⟨EdgeFlags.without (EdgeFlags.PARENT ||| EdgeFlags.BLOCK) EdgeFlags.PARENT,
        (second_half ⟨2, 0, 2⟩ 1).start_pos, 1⟩ : Edge)) ∈
      split_block [(⟨2, 0, 2⟩, ⟨EdgeFlags.PARENT ||| EdgeFlags.BLOCK, ⟨1, 3⟩, 1⟩)]
        ⟨2, 0, 2⟩ 1 :=
  ((split_block_spec [(⟨2, 0, 2⟩, ⟨EdgeFlags.PARENT ||| EdgeFlags.BLOCK, ⟨1, 3⟩, 1⟩)]
      ⟨2, 0, 2⟩ 1 (by decide) (by decide)
      (by
        intro e he
        rw [show Graph.edgesOf
            [((⟨2, 0, 2⟩ : Vertex),
              (⟨EdgeFlags.PARENT ||| EdgeFlags.BLOCK, ⟨1, 3⟩, 1⟩ : Edge))]
            ⟨2, 0, 2⟩ =
          [⟨EdgeFlags.PARENT ||| EdgeFlags.BLOCK, ⟨1, 3⟩, 1⟩] from rfl] at he
        rw [List.mem_singleton.mp he]
        left
        decide)).2.2.1
    ⟨EdgeFlags.PARENT ||| EdgeFlags.BLOCK, ⟨1, 3⟩, 1⟩ (by simp) (by decide)).2.1

theorem rz_scan_folder (g : Graph) (elt : StackElt) (fv : Bool) :
    ∀ (es : List Edge) (top : StackElt) (acc : List StackElt),
      (∃ e ∈ es, EdgeFlags.hasFlag e.flag EdgeFlags.PARENT = false) →
      (∀ e ∈ es, EdgeFlags.hasFlag e.flag EdgeFlags.PARENT = false →
        EdgeFlags.hasFlag e.flag EdgeFlags.FOLDER = true) →
      rz_scan g elt fv es top acc = Except.ok Option.none := by
  intro es
  induction es with
  | nil =>
    intro top acc hex _
    rcases hex with ⟨e, he, _⟩
    cases he
  | cons e rest ih =>
    intro top acc hex hall
    by_cases hp : EdgeFlags.hasFlag e.flag EdgeFlags.PARENT = true
    · have hex2 : ∃ e2 ∈ rest, EdgeFlags.hasFlag e2.flag EdgeFlags.PARENT = false := by
        rcases hex with ⟨e2, he2, hpe2⟩
        rcases List.mem_cons.mp he2 with rfl | hm
        · rw [hp] at hpe2
          cases hpe2
        · exact ⟨e2, hm, hpe2⟩
      have hall2 : ∀ e2 ∈ rest, EdgeFlags.hasFlag e2.flag EdgeFlags.PARENT = false →
          EdgeFlags.hasFlag e2.flag EdgeFlags.FOLDER = true :=
        fun e2 hm => hall e2 (List.mem_cons_of_mem _ hm)
      unfold rz_scan
      rw [if_pos hp]
      split
      · exact ih _ _ hex2 hall2
      · exact ih _ _ hex2 hall2
    · have hp2 : EdgeFlags.hasFlag e.flag EdgeFlags.PARENT = false := by
        simpa using hp
      have hf := hall e (List.mem_cons_self _ _) hp2
      unfold rz_scan
      rw [if_neg (by simp [hp2]), if_pos hf]

theorem rz_loop_first_folder (fuel : Nat) (g : Graph) (elt : StackElt)
    (hop : elt.is_on_path = false)
    (hscan : rz_scan g elt true
      (iter_adjacent g elt.vertex EdgeFlags.empty EdgeFlags.all)
      { elt with is_on_path := true } [] = Except.ok Option.none) :
    rz_loop (fuel + 1) g [elt] [] = Except.ok g := by
  unfold rz_loop
  dsimp only
  rw [hop]
  rw [if_neg (List.not_mem_nil _)]
  simp only [Bool.not_false, if_true, List.not_mem_nil, decide_False, Bool.not_false]
  rw [hscan]

/-- C8 (amended): when the `repair_zombies` traversal encounters a
non-`PARENT` `FOLDER` out-edge it returns from the whole function at
once, abandoning the entire remaining traversal rather than only that
subtree; in particular when the inode's children are folders (every
non-`PARENT` out-edge of the root marker vertex is `FOLDER` and one
exists) the graph is returned unchanged, folder subtrees being left to
`repair_cyclic_paths`. -/
theorem repair_zombies_folder_returns (g : Graph) (root : Position) (fuel : Nat)
    (hex : ∃ e ∈ iter_adjacent g root.inode_vertex EdgeFlags.empty EdgeFlags.all,
      EdgeFlags.hasFlag e.flag EdgeFlags.PARENT = false)
    (hall : ∀ e ∈ iter_adjacent g root.inode_vertex EdgeFlags.empty EdgeFlags.all,
      EdgeFlags.hasFlag e.flag EdgeFlags.PARENT = false →
      EdgeFlags.hasFlag e.flag EdgeFlags.FOLDER = true) :
    repair_zombies (fuel + 1) g root = Except.ok g := by
  unfold repair_zombies
  exact rz_loop_first_folder fuel g ⟨root.inode_vertex, root.inode_vertex, false⟩
    rfl
    (rz_scan_folder g ⟨root.inode_vertex, root.inode_vertex, false⟩ true
      (iter_adjacent g root.inode_vertex EdgeFlags.empty EdgeFlags.all)
      ⟨root.inode_vertex, root.inode_vertex, true⟩ [] hex hall)

instance {E A : Type} [DecidableEq E] [DecidableEq A] : DecidableEq (Except E A) :=
  fun x y =>
  match x, y with
  | Except.error a, Except.error b =>
    if h : a = b then isTrue (by rw [h]) else isFalse (fun hc => by cases hc; exact h rfl)
  | Except.ok a, Except.ok b =>
    if h : a = b then isTrue (by rw [h]) else isFalse (fun hc => by cases hc; exact h rfl)
  | Except.error _, Except.ok _ => isFalse (fun hc => by cases hc)
  | Except.ok _, Except.error _ => isFalse (fun hc => by cases hc)

/-- The concrete graph refuting C8 as stated: the inode marker `R` (at
position `(1,0)`) has a `FOLDER` edge to a folder marker `F` and a
`DELETED` edge to a dead vertex `D`, whose child `V` is alive — a
zombie situation in the non-folder part of the subgraph. -/
def rzFolderGraph : Graph :=
  [(⟨1, 0, 0⟩, ⟨17, ⟨4, 0⟩, 4⟩),
   (⟨1, 0, 0⟩, ⟨129, ⟨2, 0⟩, 2⟩),
   (⟨2, 0, 1⟩, ⟨1, ⟨3, 0⟩, 3⟩),
   (⟨2, 0, 1⟩, ⟨161, ⟨1, 0⟩, 2⟩),
   (⟨3, 0, 1⟩, ⟨33, ⟨2, 1⟩, 3⟩),
   (⟨4, 0, 0⟩, ⟨49, ⟨1, 0⟩, 4⟩)]

/-- The same graph without its folder edge. -/
def rzNoFolderGraph : Graph :=
  [(⟨1, 0, 0⟩, ⟨129, ⟨2, 0⟩, 2⟩),
   (⟨2, 0, 1⟩, ⟨1, ⟨3, 0⟩, 3⟩),
   (⟨2, 0, 1⟩, ⟨161, ⟨1, 0⟩, 2⟩),
   (⟨3, 0, 1⟩, ⟨33, ⟨2, 1⟩, 3⟩)]

/-- Counterexample to C8 as stated: with the folder edge present,
`repair_zombies` returns the graph unchanged — the zombie in the
non-folder part of the subgraph is NOT repaired — whereas on the same
graph without the folder edge the traversal does repair it (the result
differs from the input by the synthesised `PSEUDO` edge), so the
traversal does not "complete zombie repair for the rest of the
subgraph" when a folder edge is encountered. -/
theorem repair_zombies_folder_counterexample :
    repair_zombies 10 rzFolderGraph ⟨1, 0⟩ = Except.ok rzFolderGraph ∧
    repair_zombies 10 rzNoFolderGraph ⟨1, 0⟩ ≠ Except.ok rzNoFolderGraph ∧
    repair_zombies 10 rzNoFolderGraph ⟨1, 0⟩ =
      Except.ok (Graph.put (Graph.put rzNoFolderGraph ⟨1, 0, 0⟩ ⟨4, ⟨3, 0⟩, 0⟩)
        ⟨3, 0, 1⟩ ⟨36, ⟨1, 0⟩, 0⟩) := by
  refine ⟨?_, ?_, ?_⟩ <;> decide

/-- Witness for the amended C8: an inode whose only child edge is a
`FOLDER` edge is left entirely to `repair_cyclic_paths`. -/
theorem repair_zombies_folder_returns_witness :
    repair_zombies 5
        [(⟨1, 0, 0⟩, ⟨17, ⟨4, 0⟩, 4⟩), (⟨4, 0, 0⟩, ⟨49, ⟨1, 0⟩, 4⟩)] ⟨1, 0⟩ =
      Except.ok [(⟨1, 0, 0⟩, ⟨17, ⟨4, 0⟩, 4⟩), (⟨4, 0, 0⟩, ⟨49, ⟨1, 0⟩, 4⟩)] :=
  repair_zombies_folder_returns
    [(⟨1, 0, 0⟩, ⟨17, ⟨4, 0⟩, 4⟩), (⟨4, 0, 0⟩, ⟨49, ⟨1, 0⟩, 4⟩)] ⟨1, 0⟩ 4
    (by decide) (by decide)

/-- The Merkle-chain predicate: every entry's Merkle extends the
previous one with the hash of the entry's change. -/
def chainOk (ext : ChangeId → Hash) : Merkle → List RcEntry → Prop
  | _, [] => True
  | m0, e :: rest => e.2.2 = m0.next (ext e.2.1) ∧ chainOk ext e.2.2 rest

theorem lastM_nil (m0 : Merkle) : lastM m0 [] = m0 := rfl

theorem lastM_cons (m0 : Merkle) (e : RcEntry) (l : List RcEntry) :
    lastM m0 (e :: l) = lastM e.2.2 l := by
  cases l with
  | nil => rfl
  | cons e2 l2 =>
    rcases h : (e2 :: l2).getLast? with _ | x
    · exact absurd h (by simp)
    · rw [lastM, List.getLast?_cons_cons, h, lastM, h]
      rfl

theorem lastM_append (m0 : Merkle) (l1 l2 : List RcEntry) :
    lastM m0 (l1 ++ l2) = lastM (lastM m0 l1) l2 := by
  induction l1 generalizing m0 with
  | nil => rfl
  | cons e l1 ih => rw [List.cons_append, lastM_cons, lastM_cons, ih]

theorem chainOk_append {ext : ChangeId → Hash} {m0 : Merkle}
    {l1 l2 : List RcEntry} :
    chainOk ext m0 (l1 ++ l2) ↔ chainOk ext m0 l1 ∧ chainOk ext (lastM m0 l1) l2 := by
  induction l1 generalizing m0 with
  | nil => simp [chainOk, lastM_nil]
  | cons e l1 ih =>
    simp only [List.cons_append, chainOk, lastM_cons]
    constructor
    · rintro ⟨he, hrest⟩
      rcases ih.mp hrest with ⟨h1, h2⟩
      exact ⟨⟨he, h1⟩, h2⟩
    · rintro ⟨⟨he, h1⟩, h2⟩
      exact ⟨he, ih.mpr ⟨h1, h2⟩⟩

theorem chainOk_len {ext : ChangeId → Hash} :
    ∀ {l : List RcEntry} {m0 : Merkle}, chainOk ext m0 l →
      ∀ i (hi : i < l.length), (l.get ⟨i, hi⟩).2.2.length = m0.length + i + 1 := by
  intro l
  induction l with
  | nil => intro m0 _ i hi; cases hi
  | cons e rest ih =>
    intro m0 hc i hi
    rcases hc with ⟨he, hrest⟩
    cases i with
    | zero => simp [he, Merkle.next]
    | succ j =>
      have := ih hrest j (by simpa using hi)
      simp only [List.get_cons_succ] at *
      rw [this, he]
      simp [Merkle.next]
      omega

theorem chainOk_mem_len {ext : ChangeId → Hash} {l : List RcEntry} {m0 : Merkle}
    (hc : chainOk ext m0 l) :
    ∀ e ∈ l, m0.length + 1 ≤ e.2.2.length ∧ e.2.2.length ≤ m0.length + l.length := by
  intro e he
  rcases List.mem_iff_get.mp he with ⟨⟨i, hi⟩, rfl⟩
  have := chainOk_len hc i hi
  constructor <;> omega

theorem lastM_len {ext : ChangeId → Hash} :
    ∀ {l : List RcEntry} {m0 : Merkle}, chainOk ext m0 l →
      (lastM m0 l).length = m0.length + l.length := by
  intro l
  induction l with
  | nil => intro m0 _; simp [lastM_nil]
  | cons e rest ih =>
    intro m0 hc
    rw [lastM_cons, ih hc.2, hc.1]
    simp [Merkle.next]
    omega

theorem rcDel_append_mid {t : Nat} {x : RcEntry} {front suf : List RcEntry}
    (hf : ∀ e ∈ front, e.1 ≠ t) (hs : ∀ e ∈ suf, e.1 ≠ t) (hx : x.1 = t) :
    rcDel t (front ++ x :: suf) = front ++ suf := by
  unfold rcDel
  rw [List.filter_append, List.filter_cons]
  rw [if_neg (by simp [hx])]
  rw [List.filter_eq_self.mpr (by intro e he; simpa using hf e he),
    List.filter_eq_self.mpr (by intro e he; simpa using hs e he)]

theorem rcInsert_append_mid {k : Nat} {x : ChangeId × Merkle}
    {front suf : List RcEntry}
    (hf : ∀ e ∈ front, e.1 < k) (hs : ∀ e ∈ suf, k < e.1) :
    rcInsert (k, x) (front ++ suf) = front ++ (k, x) :: suf := by
  induction front with
  | nil =>
    cases suf with
    | nil => rfl
    | cons e rest =>
      rw [List.nil_append, rcInsert]
      rw [if_pos (le_of_lt (hs e (List.mem_cons_self _ _)))]
      rfl
  | cons e front ih =>
    rw [List.cons_append, rcInsert]
    rw [if_neg (by have := hf e (List.mem_cons_self _ _); omega)]
    rw [ih (fun e2 he2 => hf e2 (List.mem_cons_of_mem _ he2))]
    rfl

theorem sorted_mem_split {l : List RcEntry} {x : RcEntry}
    (hsort : List.Pairwise (fun a b => a.1 < b.1) l) (hmem : x ∈ l) :
    ∃ front suf, l = front ++ x :: suf ∧
      (∀ e ∈ front, e.1 < x.1) ∧ (∀ e ∈ suf, x.1 < e.1) := by
  rcases List.append_of_mem hmem with ⟨front, suf, rfl⟩
  refine ⟨front, suf, rfl, ?_, ?_⟩
  · intro e he
    rcases List.pairwise_append.mp hsort with ⟨_, _, hcross⟩
    exact hcross e he x (List.mem_cons_self _ _)
  · intro e he
    rcases List.pairwise_append.mp hsort with ⟨_, hxs, _⟩
    exact (List.pairwise_cons.mp hxs).1 e he

/-- The chain of entries rebuilt by `del_changes` for the timestamps
after the unrecorded one: same timestamps and change ids, Merkles
re-derived from the given seed. -/
def reChain (ext : ChangeId → Hash) (m : Merkle) : List RcEntry → List RcEntry
  | [] => []
  | e :: rest =>
    (e.1, e.2.1, m.next (ext e.2.1)) :: reChain ext (m.next (ext e.2.1)) rest

theorem reChain_keys (ext : ChangeId → Hash) :
    ∀ (l : List RcEntry) (m : Merkle),
      (reChain ext m l).map (fun e => (e.1, e.2.1)) =
        l.map (fun e => (e.1, e.2.1)) := by
  intro l
  induction l with
  | nil => intro m; rfl
  | cons e rest ih => intro m; simp [reChain, ih]

theorem reChain_chainOk (ext : ChangeId → Hash) :
    ∀ (l : List RcEntry) (m : Merkle), chainOk ext m (reChain ext m l) := by
  intro l
  induction l with
  | nil => intro m; trivial
  | cons e rest ih => intro m; exact ⟨rfl, ih _⟩

theorem reChain_len (ext : ChangeId → Hash) :
    ∀ (l : List RcEntry) (m : Merkle) (i : Nat) (hi : i < (reChain ext m l).length),
      ((reChain ext m l).get ⟨i, hi⟩).2.2.length = m.length + i + 1 :=
  fun l m => chainOk_len (reChain_chainOk ext l m)

/-- The final states table of the `del_changes` loop: recomputed
Merkles map to their timestamps, the removed old Merkles map to
nothing, anything else is looked up in the previous table. -/
def delStates (newChain : List RcEntry) (oldMerkles : List Merkle)
    (st : Merkle → Option Nat) : Merkle → Option Nat := fun m2 =>
  match newChain.find? (fun e => e.2.2 == m2) with
  | some e => some e.1
  | Option.none => if m2 ∈ oldMerkles then Option.none else st m2

theorem del_loop_spec (ext : ChangeId → Hash) (t : Nat) :
    ∀ (suf front : List RcEntry) (st : Merkle → Option Nat) (m : Merkle),
      List.Pairwise (fun a b => a.1 < b.1) (front ++ suf) →
      (∀ e ∈ suf, t < e.1) →
      (∀ i (hi : i < suf.length),
        (suf.get ⟨i, hi⟩).2.2.length = m.length + i + 2) →
      suf.foldl (del_step ext t) (front ++ suf, st, m) =
        (front ++ reChain ext m suf,
         delStates (reChain ext m suf) (suf.map (fun e => e.2.2)) st,
         lastM m (reChain ext m suf)) := by
  intro suf
  induction suf with
  | nil =>
    intro front st m _ _ _
    refine Prod.ext (by simp [reChain]) (Prod.ext ?_ (by simp [reChain, lastM_nil]))
    funext m2
    simp [delStates, reChain]
  | cons ent rest ih =>
    intro front st m hsort hgt hlen
    have hentgt : t < ent.1 := hgt ent (List.mem_cons_self _ _)
    have hsplit := List.pairwise_append.mp hsort
    have hfrontlt : ∀ e ∈ front, e.1 < ent.1 :=
      fun e he => hsplit.2.2 e he ent (List.mem_cons_self _ _)
    have hrestgt : ∀ e ∈ rest, ent.1 < e.1 :=
      (List.pairwise_cons.mp hsplit.2.1).1
    -- the head step
    have hstep : del_step ext t (front ++ ent :: rest, st, m) ent =
        (front ++ (ent.1, ent.2.1, m.next (ext ent.2.1)) :: rest,
         (fun m2 => if m2 = m.next (ext ent.2.1) then some ent.1
           else if m2 = ent.2.2 then Option.none else st m2),
         m.next (ext ent.2.1)) := by
      unfold del_step
      dsimp only
      rw [if_pos hentgt]
      have hdel : rcDel ent.1 (front ++ ent :: rest) = front ++ rest :=
        rcDel_append_mid (fun e he => Nat.ne_of_lt (hfrontlt e he))
          (fun e he => (Nat.ne_of_lt (hrestgt e he)).symm) rfl
      rw [hdel]
      rw [rcInsert_append_mid hfrontlt hrestgt]
    rw [List.foldl_cons, hstep]
    -- re-associate for the induction hypothesis
    have hassoc : front ++ (ent.1, ent.2.1, m.next (ext ent.2.1)) :: rest =
        (front ++ [(ent.1, ent.2.1, m.next (ext ent.2.1))]) ++ rest := by
      simp
    have hsort2 : List.Pairwise (fun a b => a.1 < b.1)
        ((front ++ [(ent.1, ent.2.1, m.next (ext ent.2.1))]) ++ rest) := by
      rw [List.append_assoc]
      refine List.pairwise_append.mpr ⟨hsplit.1, ?_, ?_⟩
      · refine List.pairwise_append.mpr ⟨List.pairwise_singleton _ _, (List.pairwise_cons.mp hsplit.2.1).2, ?_⟩
        intro a ha b hb
        rw [List.mem_singleton] at ha
        subst ha
        exact hrestgt b hb
      · intro a ha b hb
        rcases List.mem_append.mp hb with hb | hb
        · rw [List.mem_singleton] at hb
          subst hb
          exact hfrontlt a ha
        · exact hsplit.2.2 a ha b (List.mem_cons_of_mem _ hb)
    have hlen2 : ∀ i (hi : i < rest.length),
        (rest.get ⟨i, hi⟩).2.2.length = (m.next (ext ent.2.1)).length + i + 2 := by
      intro i hi
      have := hlen (i + 1) (by simpa using Nat.succ_lt_succ hi)
      simp only [List.get_cons_succ] at this
      rw [this, Merkle.length_next]
      omega
    rw [hassoc]
    rw [ih (front ++ [(ent.1, ent.2.1, m.next (ext ent.2.1))])
      (fun m2 => if m2 = m.next (ext ent.2.1) then some ent.1
        else if m2 = ent.2.2 then Option.none else st m2)
      (m.next (ext ent.2.1)) hsort2
      (fun e he => lt_trans hentgt (hrestgt e he)) hlen2]
    -- assemble the three components
    have hrc : (front ++ [(ent.1, ent.2.1, m.next (ext ent.2.1))]) ++
        reChain ext (m.next (ext ent.2.1)) rest =
        front ++ reChain ext m (ent :: rest) := by
      rw [List.append_assoc]
      rfl
    have hlast : lastM (m.next (ext ent.2.1))
        (reChain ext (m.next (ext ent.2.1)) rest) =
        lastM m (reChain ext m (ent :: rest)) := by
      rw [show reChain ext m (ent :: rest) =
        (ent.1, ent.2.1, m.next (ext ent.2.1)) ::
          reChain ext (m.next (ext ent.2.1)) rest from rfl]
      rw [lastM_cons]
    rw [hrc, hlast]
    refine Prod.ext rfl (Prod.ext ?_ rfl)
    funext m2
    simp only [delStates]
    have hhead : reChain ext m (ent :: rest) =
        (ent.1, ent.2.1, m.next (ext ent.2.1)) ::
          reChain ext (m.next (ext ent.2.1)) rest := rfl
    rw [hhead, List.find?_cons]
    rcases hfind : (reChain ext (m.next (ext ent.2.1)) rest).find?
        (fun e => e.2.2 == m2) with _ | e0
    · -- m2 is not among the recomputed tail Merkles
      by_cases hold : m2 ∈ rest.map (fun e => e.2.2)
      · -- m2 is an old tail Merkle, which is longer than the head Merkle
        have hne : ((ent.1, ent.2.1, m.next (ext ent.2.1)).2.2 == m2) = false := by
          rw [beq_eq_false_iff_ne]
          rcases List.mem_map.mp hold with ⟨e2, he2, rfl⟩
          rcases List.mem_iff_get.mp he2 with ⟨⟨i, hi⟩, rfl⟩
          have hl := hlen (i + 1) (by simpa using Nat.succ_lt_succ hi)
          simp only [List.get_cons_succ] at hl
          intro hcon
          have h2 := congrArg List.length hcon
          rw [Merkle.length_next] at h2
          omega
        rw [hne, hfind]
        have hmem2 : m2 ∈ (ent :: rest).map (fun e => e.2.2) := by
          simp only [List.map_cons, List.mem_cons]
          exact Or.inr hold
        rw [if_pos hold, if_pos hmem2]
      · by_cases hm1 : m2 = m.next (ext ent.2.1)
        · have hbeq : ((ent.1, ent.2.1, m.next (ext ent.2.1)).2.2 == m2) = true := by
            rw [beq_iff_eq]
            exact hm1.symm
          rw [hbeq, hfind, if_neg hold, if_pos hm1]
        · have hbeq : ((ent.1, ent.2.1, m.next (ext ent.2.1)).2.2 == m2) = false := by
            rw [beq_eq_false_iff_ne]
            exact fun hc => hm1 hc.symm
          rw [hbeq, hfind, if_neg hold, if_neg hm1]
          by_cases hent : m2 = ent.2.2
          · have hmem2 : m2 ∈ (ent :: rest).map (fun e => e.2.2) := by
              simp only [List.map_cons, List.mem_cons]
              exact Or.inl hent
            rw [if_pos hent, if_pos hmem2]
          · have hmem2 : m2 ∉ (ent :: rest).map (fun e => e.2.2) := by
              simp only [List.map_cons, List.mem_cons]
              rintro (h | h)
              · exact hent h
              · exact hold h
            rw [if_neg hent, if_neg hmem2]
    · -- m2 is a recomputed tail Merkle, longer than the head Merkle
      have he0 : e0 ∈ reChain ext (m.next (ext ent.2.1)) rest :=
        List.mem_of_find?_eq_some hfind
      have hp0 := List.find?_some hfind
      have he0m : e0.2.2 = m2 := by simpa using hp0
      have hlong := (chainOk_mem_len
        (reChain_chainOk ext rest (m.next (ext ent.2.1))) e0 he0).1
      have hne : ((ent.1, ent.2.1, m.next (ext ent.2.1)).2.2 == m2) = false := by
        rw [beq_eq_false_iff_ne]
        intro hcon
        have h2 := congrArg List.length (hcon.trans he0m.symm)
        rw [Merkle.length_next] at h2
        rw [Merkle.length_next] at hlong
        omega
      rw [hne, hfind]

/-- The closed form of `del_changes` on a channel whose `revchanges`
decomposes around the entry at `t`: the earlier entries survive
unchanged, the later ones get their Merkles re-derived from the last
surviving Merkle, and `states` is updated accordingly. -/
theorem del_changes_spec (ext : ChangeId → Hash) (ch : Channel) (p : ChangeId)
    (t : Nat) (mk : Merkle) (pre suf : List RcEntry)
    (hdec : ch.revchanges = pre ++ (t, p, mk) :: suf)
    (hpre : ∀ e ∈ pre, e.1 < t) (hsuf : ∀ e ∈ suf, t < e.1)
    (hsort : List.Pairwise (fun a b => a.1 < b.1) ch.revchanges)
    (hchain : chainOk ext Merkle.zero ch.revchanges) :
    del_changes ext ch p t =
      { ch with
        revchanges := pre ++ reChain ext (lastM Merkle.zero pre) suf
        states := delStates (reChain ext (lastM Merkle.zero pre) suf)
          (suf.map (fun e => e.2.2))
          (fun m2 => if m2 = mk then Option.none else ch.states m2)
        tags := ch.tags.erase t
        changes := fun q =>
          if q = p then (if ch.changes p = some t then Option.none else ch.changes q)
          else ch.changes q } := by
  have hfilter1 : ch.revchanges.filter (fun e => decide (t ≤ e.1)) =
      (t, p, mk) :: suf := by
    rw [hdec, List.filter_append, List.filter_cons]
    rw [List.filter_eq_nil.mpr (by intro e he; simpa using Nat.not_le.mpr (hpre e he))]
    rw [if_pos (by simp)]
    rw [List.filter_eq_self.mpr (by intro e he; simpa using le_of_lt (hsuf e he))]
    rfl
  have hfilter2 : ch.revchanges.filter (fun e => decide (e.1 < t)) = pre := by
    rw [hdec, List.filter_append, List.filter_cons]
    rw [List.filter_eq_self.mpr (by intro e he; simpa using hpre e he)]
    rw [if_neg (by simp)]
    rw [List.filter_eq_nil.mpr
      (by intro e he; simpa using Nat.not_lt.mpr (le_of_lt (hsuf e he)))]
    simp
  rw [hdec] at hchain
  rcases chainOk_append.mp hchain with ⟨hchainpre, hchainmid⟩
  rcases hchainmid with ⟨hmk, hchainsuf⟩
  have hm0len := @lastM_len ext _ _ hchainpre
  have hsort2 : List.Pairwise (fun a b => a.1 < b.1) (pre ++ suf) := by
    rw [hdec] at hsort
    rcases List.pairwise_append.mp hsort with ⟨h1, h2, h3⟩
    exact List.pairwise_append.mpr ⟨h1, (List.pairwise_cons.mp h2).2,
      fun a ha b hb => h3 a ha b (List.mem_cons_of_mem _ hb)⟩
  have hlen : ∀ i (hi : i < suf.length),
      (suf.get ⟨i, hi⟩).2.2.length = (lastM Merkle.zero pre).length + i + 2 := by
    intro i hi
    have := chainOk_len hchainsuf i hi
    rw [this, hmk, Merkle.length_next]
    omega
  have hfirst : del_step ext t
      (ch.revchanges, ch.states, lastM Merkle.zero pre) (t, p, mk) =
      (pre ++ suf,
       fun m2 => if m2 = mk then Option.none else ch.states m2,
       lastM Merkle.zero pre) := by
    unfold del_step
    dsimp only
    rw [if_neg (by omega)]
    rw [hdec]
    rw [rcDel_append_mid (fun e he => Nat.ne_of_lt (hpre e he))
      (fun e he => (Nat.ne_of_lt (hsuf e he)).symm) rfl]
  unfold del_changes
  rw [hfilter1, hfilter2]
  dsimp only
  rw [List.foldl_cons, hfirst]
  rw [del_loop_spec ext t suf pre _ _ hsort2 hsuf hlen]

theorem mem_pairs {l : List RcEntry} {a : Nat} {b : ChangeId} :
    (∃ m, (a, b, m) ∈ l) ↔ (a, b) ∈ l.map (fun e => (e.1, e.2.1)) := by
  constructor
  · rintro ⟨m, hm⟩
    exact List.mem_map.mpr ⟨(a, b, m), hm, rfl⟩
  · intro hm
    rcases List.mem_map.mp hm with ⟨e, he, heq⟩
    refine ⟨e.2.2, ?_⟩
    have h1 : e.1 = a := congrArg Prod.fst heq
    have h2 : e.2.1 = b := congrArg (fun x => x.2) heq
    rw [← h1, ← h2]
    exact he

/-- The data invariant of a channel: `revchanges` is sorted by
timestamp below `apply_counter`, its Merkles form the rolling chain
from zero, and the `changes` and `states` tables index it exactly. -/
def ChannelInv (ext : ChangeId → Hash) (ch : Channel) : Prop :=
  List.Pairwise (fun a b => a.1 < b.1) ch.revchanges ∧
  (∀ e ∈ ch.revchanges, e.1 < ch.apply_counter) ∧
  chainOk ext Merkle.zero ch.revchanges ∧
  (∀ p t, ch.changes p = some t ↔ ∃ m, (t, p, m) ∈ ch.revchanges) ∧
  (∀ m t, ch.states m = some t ↔ ∃ p, (t, p, m) ∈ ch.revchanges)

theorem channelInv_empty (ext : ChangeId → Hash) : ChannelInv ext Channel.empty := by
  refine ⟨List.Pairwise.nil, ?_, trivial, ?_, ?_⟩ <;> simp [Channel.empty]

/-- The closed form of a successful `put_changes` at the counter. -/
theorem put_changes_closed (ch : Channel) (p : ChangeId) (h : Hash)
    (hc : ch.changes p = Option.none)
    (hcnt : ∀ e ∈ ch.revchanges, e.1 < ch.apply_counter) :
    put_changes ch p ch.apply_counter h =
      (some ((lastM Merkle.zero ch.revchanges).next h),
       { ch with
         apply_counter := ch.apply_counter + 1
         changes := fun q =>
           if q = p then some ch.apply_counter else ch.changes q
         revchanges := ch.revchanges ++
           [(ch.apply_counter, p, (lastM Merkle.zero ch.revchanges).next h)]
         states := fun m2 =>
           if m2 = (lastM Merkle.zero ch.revchanges).next h
           then some ch.apply_counter else ch.states m2 }) := by
  unfold put_changes
  rw [hc]
  dsimp only
  have hins : rcInsert (ch.apply_counter, p,
      (lastM Merkle.zero ch.revchanges).next h) (ch.revchanges ++ []) =
      ch.revchanges ++ [(ch.apply_counter, p,
        (lastM Merkle.zero ch.revchanges).next h)] :=
    rcInsert_append_mid hcnt (by intro e he; cases he)
  rw [List.append_nil] at hins
  rw [hins]

theorem put_changes_inv (ext : ChangeId → Hash) (ch : Channel) (p : ChangeId)
    (hinv : ChannelInv ext ch) :
    ChannelInv ext (put_changes ch p ch.apply_counter (ext p)).2 := by
  rcases hinv with ⟨hsort, hcnt, hchain, hch, hst⟩
  cases hc : ch.changes p with
  | some t =>
    have : put_changes ch p ch.apply_counter (ext p) = (Option.none, ch) := by
      unfold put_changes
      rw [hc]
    rw [this]
    exact ⟨hsort, hcnt, hchain, hch, hst⟩
  | none =>
    rw [put_changes_closed ch p (ext p) hc hcnt]
    dsimp only
    set m := (lastM Merkle.zero ch.revchanges).next (ext p) with hm
    set t := ch.apply_counter with ht
    have hmlen : m.length = ch.revchanges.length + 1 := by
      rw [hm, Merkle.length_next, @lastM_len ext _ _ hchain]
      simp [Merkle.zero]
    refine ⟨?_, ?_, ?_, ?_, ?_⟩
    · refine List.pairwise_append.mpr ⟨hsort, List.pairwise_singleton _ _, ?_⟩
      intro a ha b hb
      rw [List.mem_singleton] at hb
      subst hb
      exact hcnt a ha
    · intro e he
      rcases List.mem_append.mp he with he | he
      · exact lt_trans (hcnt e he) (Nat.lt_succ_self _)
      · rw [List.mem_singleton] at he
        subst he
        exact Nat.lt_succ_self _
    · exact chainOk_append.mpr ⟨hchain, rfl, trivial⟩
    · intro q t2
      dsimp only
      by_cases hq : q = p
      · subst hq
        rw [if_pos rfl]
        constructor
        · intro heq
          have : t2 = t := by
            injection heq with heq2
            exact heq2.symm
          subst this
          exact ⟨m, List.mem_append.mpr (Or.inr (List.mem_singleton.mpr rfl))⟩
        · rintro ⟨m2, hm2⟩
          rcases List.mem_append.mp hm2 with hm2 | hm2
          · exact absurd ((hch q t2).mpr ⟨m2, hm2⟩) (by rw [hc]; simp)
          · rw [List.mem_singleton] at hm2
            injection hm2 with h1 _
            rw [h1]
      · rw [if_neg hq]
        rw [hch q t2]
        constructor
        · rintro ⟨m2, hm2⟩
          exact ⟨m2, List.mem_append.mpr (Or.inl hm2)⟩
        · rintro ⟨m2, hm2⟩
          rcases List.mem_append.mp hm2 with hm2 | hm2
          · exact ⟨m2, hm2⟩
          · rw [List.mem_singleton] at hm2
            injection hm2 with _ h2
            injection h2 with h3 _
            exact absurd h3 hq
    · intro m2 t2
      dsimp only
      by_cases hm2 : m2 = m
      · subst hm2
        rw [if_pos rfl]
        constructor
        · intro heq
          have : t2 = t := by
            injection heq with heq2
            exact heq2.symm
          subst this
          exact ⟨p, List.mem_append.mpr (Or.inr (List.mem_singleton.mpr rfl))⟩
        · rintro ⟨q, hq⟩
          rcases List.mem_append.mp hq with hq | hq
          · exfalso
            have := (chainOk_mem_len hchain _ hq).2
            simp only [Merkle.zero, List.length_nil] at this
            omega
          · rw [List.mem_singleton] at hq
            injection hq with h1 _
            rw [h1]
      · rw [if_neg hm2]
        rw [hst m2 t2]
        constructor
        · rintro ⟨q, hq⟩
          exact ⟨q, List.mem_append.mpr (Or.inl hq)⟩
        · rintro ⟨q, hq⟩
          rcases List.mem_append.mp hq with hq | hq
          · exact ⟨q, hq⟩
          · rw [List.mem_singleton] at hq
            injection hq with _ h2
            injection h2 with _ h3
            exact absurd h3 hm2

theorem chainOk_merkle_inj {ext : ChangeId → Hash} {m0 : Merkle} {l : List RcEntry}
    (hc : chainOk ext m0 l) :
    ∀ a ∈ l, ∀ b ∈ l, a.2.2 = b.2.2 → a = b := by
  intro a ha b hb heq
  rcases List.mem_iff_get.mp ha with ⟨⟨i, hi⟩, rfl⟩
  rcases List.mem_iff_get.mp hb with ⟨⟨j, hj⟩, rfl⟩
  have h1 := chainOk_len hc i hi
  have h2 := chainOk_len hc j hj
  have hij : i = j := by
    have := congrArg List.length heq
    omega
  subst hij
  rfl

theorem reChain_pair_mem {ext : ChangeId → Hash} {m0 : Merkle}
    {suf : List RcEntry} {x : Nat} {y : ChangeId} :
    (∃ m, (x, y, m) ∈ reChain ext m0 suf) ↔ (∃ m, (x, y, m) ∈ suf) := by
  rw [mem_pairs, mem_pairs, reChain_keys]

theorem del_changes_inv (ext : ChangeId → Hash) (ch : Channel) (p : ChangeId)
    (t : Nat) (mk : Merkle) (hinv : ChannelInv ext ch)
    (hmem : (t, p, mk) ∈ ch.revchanges) :
    ChannelInv ext (del_changes ext ch p t) := by
  rcases hinv with ⟨hsort, hcnt, hchain, hch, hst⟩
  rcases sorted_mem_split hsort hmem with ⟨pre, suf, hdec, hpre, hsuf⟩
  rw [del_changes_spec ext ch p t mk pre suf hdec hpre hsuf hsort hchain]
  have hchain2 := hchain
  rw [hdec] at hchain2
  rcases chainOk_append.mp hchain2 with ⟨hchainpre, hmk, hchainsuf⟩
  set m0 := lastM Merkle.zero pre with hm0
  have hm0len : m0.length = pre.length := by
    rw [hm0, @lastM_len ext _ _ hchainpre]
    simp [Merkle.zero]
  have hmklen : mk.length = pre.length + 1 := by
    have h0 : mk = (t, p, mk).2.2 := rfl
    rw [h0, hmk, Merkle.length_next]
    omega
  have hsuflen : ∀ e ∈ suf, pre.length + 2 ≤ e.2.2.length := by
    intro e he
    have := (chainOk_mem_len hchainsuf e he).1
    simp only at this
    omega
  have hprelen : ∀ e ∈ pre, e.2.2.length ≤ pre.length := by
    intro e he
    have := (chainOk_mem_len hchainpre e he).2
    simpa [Merkle.zero] using this
  have hnewchain : chainOk ext Merkle.zero (pre ++ reChain ext m0 suf) :=
    chainOk_append.mpr ⟨hchainpre, reChain_chainOk ext suf m0⟩
  have hrclen : ∀ e ∈ reChain ext m0 suf, pre.length + 1 ≤ e.2.2.length := by
    intro e he
    have := (chainOk_mem_len (reChain_chainOk ext suf m0) e he).1
    omega
  have hsort2 := hsort
  rw [hdec] at hsort2
  have hsplit2 := List.pairwise_append.mp hsort2
  have hkey : ∀ {x : RcEntry}, x ∈ reChain ext m0 suf → ∃ x2 ∈ suf, x2.1 = x.1 := by
    intro x hx
    rcases (@reChain_pair_mem ext _ _ _ _).mp ⟨x.2.2, by
      rw [show (x.1, x.2.1, x.2.2) = x from rfl]
      exact hx⟩ with ⟨m2, hm2⟩
    exact ⟨(x.1, x.2.1, m2), hm2, rfl⟩
  have hcp : ch.changes p = some t := (hch p t).mpr ⟨mk, hmem⟩
  refine ⟨?_, ?_, hnewchain, ?_, ?_⟩
  · dsimp only
    refine List.pairwise_append.mpr ⟨hsplit2.1, ?_, ?_⟩
    · have hpm : List.Pairwise (fun a b : Nat × ChangeId => a.1 < b.1)
          ((reChain ext m0 suf).map (fun e => (e.1, e.2.1))) := by
        rw [reChain_keys]
        exact List.Pairwise.map (fun e : RcEntry => (e.1, e.2.1)) (fun a b hab => hab) (List.pairwise_cons.mp hsplit2.2.1).2
      exact (List.pairwise_map.mp hpm).imp (fun hab => hab)
    · intro a ha b hb
      rcases hkey hb with ⟨b2, hb2, hb2k⟩
      rw [← hb2k]
      exact hsplit2.2.2 a ha b2 (List.mem_cons_of_mem _ hb2)
  · dsimp only
    intro e he
    rcases List.mem_append.mp he with he | he
    · refine hcnt e ?_
      rw [hdec]
      exact List.mem_append.mpr (Or.inl he)
    · rcases hkey he with ⟨e2, he2, hk⟩
      rw [← hk]
      refine hcnt e2 ?_
      rw [hdec]
      exact List.mem_append.mpr (Or.inr (List.mem_cons_of_mem _ he2))
  · -- the changes table indexes the new revchanges
    dsimp only
    intro q t2
    by_cases hq : q = p
    · subst hq
      rw [if_pos rfl, if_pos hcp]
      constructor
      · intro hc
        cases hc
      · rintro ⟨m2, hm2⟩
        exfalso
        rcases List.mem_append.mp hm2 with hm2 | hm2
        · have hkeylt := hpre _ hm2
          have : ch.changes q = some t2 := (hch q t2).mpr ⟨m2, by
            rw [hdec]
            exact List.mem_append.mpr (Or.inl hm2)⟩
          rw [hcp] at this
          injection this with h2
          simp only at hkeylt
          omega
        · rcases (@reChain_pair_mem ext _ _ _ _).mp ⟨m2, hm2⟩ with ⟨m3, hm3⟩
          have hkeygt := hsuf _ hm3
          have : ch.changes q = some t2 := (hch q t2).mpr ⟨m3, by
            rw [hdec]
            exact List.mem_append.mpr (Or.inr (List.mem_cons_of_mem _ hm3))⟩
          rw [hcp] at this
          injection this with h2
          simp only at hkeygt
          omega
    · rw [if_neg hq, hch q t2]
      constructor
      · rintro ⟨m2, hm2⟩
        rw [hdec] at hm2
        rcases List.mem_append.mp hm2 with hm2 | hm2
        · exact ⟨m2, List.mem_append.mpr (Or.inl hm2)⟩
        · rcases List.mem_cons.mp hm2 with heq | hm2
          · injection heq with _ h2
            injection h2 with h3 _
            exact absurd h3 hq
          · rcases (@reChain_pair_mem ext m0 _ _ _).mpr ⟨m2, hm2⟩ with ⟨m3, hm3⟩
            exact ⟨m3, List.mem_append.mpr (Or.inr hm3)⟩
      · rintro ⟨m2, hm2⟩
        rcases List.mem_append.mp hm2 with hm2 | hm2
        · exact ⟨m2, by rw [hdec]; exact List.mem_append.mpr (Or.inl hm2)⟩
        · rcases (@reChain_pair_mem ext _ _ _ _).mp ⟨m2, hm2⟩ with ⟨m3, hm3⟩
          exact ⟨m3, by
            rw [hdec]
            exact List.mem_append.mpr (Or.inr (List.mem_cons_of_mem _ hm3))⟩
  · -- the states table indexes the new revchanges
    dsimp only
    intro m2 t2
    unfold delStates
    rcases hfind : (reChain ext m0 suf).find? (fun e => e.2.2 == m2) with _ | e0
    · rw [hfind]
      dsimp only
      have hnone : ∀ e ∈ reChain ext m0 suf, e.2.2 ≠ m2 := by
        intro e he
        have := List.find?_eq_none.mp hfind e he
        simpa using this
      by_cases hold : m2 ∈ suf.map (fun e => e.2.2)
      · rw [if_pos hold]
        constructor
        · intro hc
          cases hc
        · rintro ⟨q, hq⟩
          exfalso
          rcases List.mem_map.mp hold with ⟨es, hes, hesm⟩
          have hlong := hsuflen es hes
          rw [hesm] at hlong
          rcases List.mem_append.mp hq with hq | hq
          · have := hprelen _ hq
            simp only at this
            omega
          · exact hnone _ hq rfl
      · rw [if_neg hold]
        by_cases hmk2 : m2 = mk
        · rw [if_pos hmk2]
          constructor
          · intro hc
            cases hc
          · rintro ⟨q, hq⟩
            exfalso
            rcases List.mem_append.mp hq with hq | hq
            · have := hprelen _ hq
              simp only at this
              rw [hmk2] at this
              omega
            · exact hnone _ hq rfl
        · rw [if_neg hmk2, hst m2 t2]
          constructor
          · rintro ⟨q, hq⟩
            rw [hdec] at hq
            rcases List.mem_append.mp hq with hq | hq
            · exact ⟨q, List.mem_append.mpr (Or.inl hq)⟩
            · rcases List.mem_cons.mp hq with heq | hq
              · exfalso
                injection heq with _ h2
                injection h2 with _ h3
                exact hmk2 h3
              · exfalso
                exact hold (List.mem_map.mpr ⟨(t2, q, m2), hq, rfl⟩)
          · rintro ⟨q, hq⟩
            rcases List.mem_append.mp hq with hq | hq
            · exact ⟨q, by rw [hdec]; exact List.mem_append.mpr (Or.inl hq)⟩
            · exact absurd rfl (hnone _ hq)
    · rw [hfind]
      dsimp only
      have he0 : e0 ∈ reChain ext m0 suf := List.mem_of_find?_eq_some hfind
      have hp0 := List.find?_some hfind
      have he0m : e0.2.2 = m2 := by simpa using hp0
      constructor
      · intro hc
        injection hc with h2
        subst h2
        refine ⟨e0.2.1, List.mem_append.mpr (Or.inr ?_)⟩
        rw [show (e0.1, e0.2.1, m2) = e0 by rw [← he0m]]
        exact he0
      · rintro ⟨q, hq⟩
        rcases List.mem_append.mp hq with hq | hq
        · exfalso
          have h1 := hprelen _ hq
          have h2 := hrclen _ he0
          rw [he0m] at h2
          simp only at h1
          omega
        · have := chainOk_merkle_inj (reChain_chainOk ext suf m0) _ hq e0 he0
            (by simpa using he0m.symm)
          rw [← this]

/-- The channels reachable from a fresh channel by any sequence of
operations: `put_changes` as `apply_change_to_channel` calls it (at the
current counter, with the hash of the applied change), and
`del_changes` as unrecord calls it (with the timestamp the change is
recorded at).  `ext` is the repository's `external` table. -/
inductive Reaches (ext : ChangeId → Hash) : Channel → Prop
  | init : Reaches ext Channel.empty
  | put (ch : Channel) (p : ChangeId) : Reaches ext ch →
      Reaches ext (put_changes ch p ch.apply_counter (ext p)).2
  | del (ch : Channel) (p : ChangeId) (t : Nat) (m : Merkle) :
      Reaches ext ch → (t, p, m) ∈ ch.revchanges →
      Reaches ext (del_changes ext ch p t)

theorem reaches_inv {ext : ChangeId → Hash} {ch : Channel}
    (hr : Reaches ext ch) : ChannelInv ext ch := by
  induction hr with
  | init => exact channelInv_empty ext
  | put ch p _ ih => exact put_changes_inv ext ch p ih
  | del ch p t m _ hmem ih => exact del_changes_inv ext ch p t m ih hmem

/-- C2: on every channel reachable by any sequence of `put_changes`
and `del_changes` operations, the `revchanges` entries carry the
rolling Merkle chain — each entry's Merkle extends the previous entry's
with the hash of its change, the empty prefix giving the zero element —
and for every recorded timestamp `t` the `states` table maps that
entry's Merkle back to `t`. -/
theorem merkle_chain_and_states_invariant (ext : ChangeId → Hash) (ch : Channel)
    (hr : Reaches ext ch) :
    chainOk ext Merkle.zero ch.revchanges ∧
      ∀ t p m, (t, p, m) ∈ ch.revchanges → ch.states m = some t := by
  rcases reaches_inv hr with ⟨_, _, hchain, _, hst⟩
  exact ⟨hchain, fun t p m hm => (hst m t).mpr ⟨p, hm⟩⟩

/-- Witness for C2 on a concrete two-change history. -/
theorem merkle_chain_and_states_invariant_witness :
    chainOk Hash.blake3 Merkle.zero
        ((put_changes (put_changes Channel.empty 1 0 (Hash.blake3 1)).2 2
          (put_changes Channel.empty 1 0 (Hash.blake3 1)).2.apply_counter
          (Hash.blake3 2)).2.revchanges) ∧
      ∀ t p m, (t, p, m) ∈
          (put_changes (put_changes Channel.empty 1 0 (Hash.blake3 1)).2 2
            (put_changes Channel.empty 1 0 (Hash.blake3 1)).2.apply_counter
            (Hash.blake3 2)).2.revchanges →
        (put_changes (put_changes Channel.empty 1 0 (Hash.blake3 1)).2 2
          (put_changes Channel.empty 1 0 (Hash.blake3 1)).2.apply_counter
          (Hash.blake3 2)).2.states m = some t :=
  merkle_chain_and_states_invariant Hash.blake3 _
    (Reaches.put _ 2 (Reaches.put Channel.empty 1 Reaches.init))

/-- The `(change id, rolling Merkle)` value sequence obtained by
folding a list of change ids into a seed Merkle. -/
def chainPairs (ext : ChangeId → Hash) (m : Merkle) :
    List ChangeId → List (ChangeId × Merkle)
  | [] => []
  | q :: rest => (q, m.next (ext q)) :: chainPairs ext (m.next (ext q)) rest

theorem reChain_map_val (ext : ChangeId → Hash) :
    ∀ (suf : List RcEntry) (m : Merkle),
      (reChain ext m suf).map (fun e => (e.2.1, e.2.2)) =
        chainPairs ext m (suf.map (fun e => e.2.1)) := by
  intro suf
  induction suf with
  | nil => intro m; rfl
  | cons e rest ih => intro m; simp [reChain, chainPairs, ih]

theorem chain_map_val (ext : ChangeId → Hash) :
    ∀ (l : List RcEntry) (m : Merkle), chainOk ext m l →
      l.map (fun e => (e.2.1, e.2.2)) = chainPairs ext m (l.map (fun e => e.2.1)) := by
  intro l
  induction l with
  | nil => intro m _; rfl
  | cons e rest ih =>
    intro m hc
    rcases hc with ⟨he, hrest⟩
    simp only [List.map_cons, chainPairs, ih e.2.2 hrest, he]

/-- Applying a list of changes in order on a fresh channel, each at the
current counter with its hash. -/
def freshApply (ext : ChangeId → Hash) (ps : List ChangeId) : Channel :=
  ps.foldl (fun ch q => (put_changes ch q ch.apply_counter (ext q)).2) Channel.empty

theorem freshApply_reaches (ext : ChangeId → Hash) (ps : List ChangeId) :
    Reaches ext (freshApply ext ps) := by
  suffices h : ∀ (l : List ChangeId) (ch : Channel), Reaches ext ch →
      Reaches ext (l.foldl
        (fun ch q => (put_changes ch q ch.apply_counter (ext q)).2) ch) by
    exact h ps Channel.empty Reaches.init
  intro l
  induction l with
  | nil => intro ch h; exact h
  | cons q rest ih =>
    intro ch h
    exact ih _ (Reaches.put ch q h)

theorem freshFold_map_val (ext : ChangeId → Hash) :
    ∀ (ps : List ChangeId) (ch : Channel), ChannelInv ext ch →
      ps.Nodup →
      (∀ q ∈ ps, ch.changes q = Option.none) →
      (ps.foldl (fun ch q => (put_changes ch q ch.apply_counter (ext q)).2)
          ch).revchanges.map (fun e => (e.2.1, e.2.2)) =
        ch.revchanges.map (fun e => (e.2.1, e.2.2)) ++
          chainPairs ext (lastM Merkle.zero ch.revchanges) ps := by
  intro ps
  induction ps with
  | nil => intro ch _ _ _; simp [chainPairs]
  | cons q rest ih =>
    intro ch hinv hnd hnone
    have hqnotin : q ∉ rest := (List.nodup_cons.mp hnd).1
    have hndrest : rest.Nodup := (List.nodup_cons.mp hnd).2
    rcases hinv with ⟨hsort, hcnt, hchain, hch, hst⟩
    have hq := hnone q (List.mem_cons_self _ _)
    rw [List.foldl_cons]
    rw [show (put_changes ch q ch.apply_counter (ext q)).2 =
      ({ ch with
         apply_counter := ch.apply_counter + 1
         changes := fun q2 =>
           if q2 = q then some ch.apply_counter else ch.changes q2
         revchanges := ch.revchanges ++
           [(ch.apply_counter, q, (lastM Merkle.zero ch.revchanges).next (ext q))]
         states := fun m2 =>
           if m2 = (lastM Merkle.zero ch.revchanges).next (ext q)
           then some ch.apply_counter else ch.states m2 } : Channel) from by
      rw [put_changes_closed ch q (ext q) hq hcnt]]
    have hinv2 : ChannelInv ext (put_changes ch q ch.apply_counter (ext q)).2 :=
      put_changes_inv ext ch q ⟨hsort, hcnt, hchain, hch, hst⟩
    rw [put_changes_closed ch q (ext q) hq hcnt] at hinv2
    rw [ih _ hinv2 hndrest]
    · dsimp only
      rw [lastM_append]
      simp only [List.map_append, List.map_cons, List.map_nil]
      rw [List.append_assoc]
      rfl
    · intro q2 hq2
      dsimp only
      have heq : q2 ≠ q := fun hc => hqnotin (hc ▸ hq2)
      rw [if_neg heq]
      exact hnone q2 (List.mem_cons_of_mem _ hq2)

theorem inv_ids_nodup {ext : ChangeId → Hash} {ch : Channel}
    (hinv : ChannelInv ext ch) :
    (ch.revchanges.map (fun e => e.2.1)).Nodup := by
  rcases hinv with ⟨hsort, _, _, hch, _⟩
  have hids : ∀ a ∈ ch.revchanges, ∀ b ∈ ch.revchanges,
      a.2.1 = b.2.1 → a.1 = b.1 := by
    intro a ha b hb heq
    have h1 : ch.changes a.2.1 = some a.1 := (hch _ _).mpr ⟨a.2.2, by
      rw [show (a.1, a.2.1, a.2.2) = a from rfl]
      exact ha⟩
    have h2 : ch.changes b.2.1 = some b.1 := (hch _ _).mpr ⟨b.2.2, by
      rw [show (b.1, b.2.1, b.2.2) = b from rfl]
      exact hb⟩
    rw [heq, h2] at h1
    injection h1 with h3
    exact h3.symm
  have hpw : List.Pairwise (fun a b : RcEntry => a.2.1 ≠ b.2.1) ch.revchanges := by
    refine List.Pairwise.imp_of_mem ?_ hsort
    intro a b ha hb hlt heq
    have := hids a ha b hb heq
    omega
  exact List.Pairwise.map _ (fun a b h => h) hpw

theorem split_chain_map (ext : ChangeId → Hash) :
    ∀ (pre suf : List RcEntry) (m : Merkle), chainOk ext m pre →
      (pre ++ reChain ext (lastM m pre) suf).map (fun e => (e.2.1, e.2.2)) =
        chainPairs ext m ((pre ++ suf).map (fun e => e.2.1)) := by
  intro pre
  induction pre with
  | nil =>
    intro suf m _
    rw [lastM_nil, List.nil_append, List.nil_append, reChain_map_val]
  | cons e pre ih =>
    intro suf m hc
    rcases hc with ⟨he, hrest⟩
    rw [List.cons_append, List.map_cons, lastM_cons]
    rw [ih suf e.2.2 hrest]
    rw [List.cons_append, List.map_cons, chainPairs, ← he]

/-- C6 (amended): unrecording the change at timestamp `t` removes its
entry and re-derives the rolling Merkle of every later entry from the
still-present subsequence; the resulting sequence of
`(change id, rolling Merkle)` values equals the one obtained by
applying the remaining changes in order on a fresh channel.  The
timestamp keys of the surviving entries are preserved (not renumbered),
so the tables themselves differ from the fresh channel's whenever the
unrecorded change was not the last one. -/
theorem del_changes_rederives (ext : ChangeId → Hash) (ch : Channel)
    (p : ChangeId) (t : Nat) (mk : Merkle) (hr : Reaches ext ch)
    (hmem : (t, p, mk) ∈ ch.revchanges) :
    ∃ pre suf, ch.revchanges = pre ++ (t, p, mk) :: suf ∧
      (del_changes ext ch p t).revchanges =
        pre ++ reChain ext (lastM Merkle.zero pre) suf ∧
      (del_changes ext ch p t).revchanges.map (fun e => (e.2.1, e.2.2)) =
        (freshApply ext ((pre ++ suf).map (fun e => e.2.1))).revchanges.map
          (fun e => (e.2.1, e.2.2)) := by
  have hinv := reaches_inv hr
  have hnodupids := inv_ids_nodup hinv
  rcases hinv with ⟨hsort, hcnt, hchain, hch, hst⟩
  rcases sorted_mem_split hsort hmem with ⟨pre, suf, hdec, hpre, hsuf⟩
  have hrv : (del_changes ext ch p t).revchanges =
      pre ++ reChain ext (lastM Merkle.zero pre) suf := by
    rw [del_changes_spec ext ch p t mk pre suf hdec hpre hsuf hsort hchain]
  refine ⟨pre, suf, hdec, hrv, ?_⟩
  have hchain2 := hchain
  rw [hdec] at hchain2
  rcases chainOk_append.mp hchain2 with ⟨hchainpre, _, _⟩
  rw [hrv, split_chain_map ext pre suf Merkle.zero hchainpre]
  have hnd : ((pre ++ suf).map (fun e => e.2.1)).Nodup := by
    refine List.Nodup.sublist ?_ (hdec ▸ hnodupids)
    rw [List.map_append, List.map_append, List.map_cons]
    exact List.Sublist.append_left (List.sublist_cons_self _ _) _
  unfold freshApply
  rw [freshFold_map_val ext _ Channel.empty (channelInv_empty ext) hnd
    (by intro q _; rfl)]
  rw [show (Channel.empty).revchanges = [] from rfl]
  rw [lastM_nil]
  rfl

/-- Counterexample to C6 as stated: apply changes 1, 2, 3, unrecord
change 2 (recorded at timestamp 1).  The surviving entries keep their
original timestamps (0 and 2), while a fresh channel with changes 1 and
3 records them at 0 and 1, so the resulting `revchanges` (and hence
`states`) tables are NOT identical to the fresh channel's — only the
`(change id, rolling Merkle)` value sequences agree. -/
theorem del_changes_rederives_counterexample :
    (del_changes Hash.blake3 (freshApply Hash.blake3 [1, 2, 3]) 2 1).revchanges ≠
      (freshApply Hash.blake3 [1, 3]).revchanges ∧
    (del_changes Hash.blake3 (freshApply Hash.blake3 [1, 2, 3]) 2 1).revchanges.map
        (fun e => (e.2.1, e.2.2)) =
      (freshApply Hash.blake3 [1, 3]).revchanges.map (fun e => (e.2.1, e.2.2)) := by
  constructor <;> decide

/-- Witness for the amended C6 at the same concrete history. -/
theorem del_changes_rederives_witness :
    ∃ pre suf : List RcEntry,
      (freshApply Hash.blake3 [1, 2, 3]).revchanges =
        pre ++ (1, 2, ([Hash.blake3 2, Hash.blake3 1] : Merkle)) :: suf ∧
      (del_changes Hash.blake3 (freshApply Hash.blake3 [1, 2, 3]) 2 1).revchanges =
        pre ++ reChain Hash.blake3 (lastM Merkle.zero pre) suf ∧
      (del_changes Hash.blake3 (freshApply Hash.blake3 [1, 2, 3]) 2 1).revchanges.map
          (fun e => (e.2.1, e.2.2)) =
        (freshApply Hash.blake3 ((pre ++ suf).map (fun e => e.2.1))).revchanges.map
          (fun e => (e.2.1, e.2.2)) :=
  del_changes_rederives Hash.blake3 (freshApply Hash.blake3 [1, 2, 3]) 2 1
    ([Hash.blake3 2, Hash.blake3 1] : Merkle)
    (freshApply_reaches Hash.blake3 [1, 2, 3]) (by decide)
